import Mathlib

/-!
Verification development for the hierarchy-construction and grouping engine
of the Changelog-Weaver repository.

The definitions below are a shallow embedding of
`changelog_weaver/utilities/heirarchy_builder.py` and `changelog_weaver/work.py`.
Python objects are mutable and shared by reference; since the map
`self.all : Dict[int, HierarchicalWorkItem]` holds every live item keyed by
its `id` and the `children` lists only ever hold items of the map, mutation
through any alias is modelled by threading the map and storing child
references as ids.  Python's `dict` preserves insertion order, so the map is
an association list (`List Item`) ordered by insertion; `dict[k] = v`
replaces in place when the key exists and appends otherwise.
-/

namespace ChangelogWeaver

/-- Embeds `WorkItemGroup` (complex_types.py / types.py): a typed bucket of
work items.  `items` holds references to map items, modelled as ids. -/
structure WorkItemGroup where
  type : String
  icon : String
  items : List Nat
  deriving DecidableEq, Repr

/-- Embeds `HierarchicalWorkItem`, restricted to the fields the hierarchy
and grouping logic reads or writes (`id`, `type`, `icon`, `parent_id`,
`root`, `orphan`, `children`, `children_by_type`); the remaining fields are
display metadata never consulted by the engine. -/
structure Item where
  id : Nat
  type : String
  icon : String
  parent_id : Nat
  root : Bool
  orphan : Bool
  children : List Nat
  children_by_type : List WorkItemGroup
  deriving DecidableEq, Repr

/-- The key view of the item map (`self.all.keys()`). -/
def idsOf (m : List Item) : List Nat := m.map (·.id)

/-- Dictionary lookup `self.all[i]` / `self.all.get(i)`. -/
def lookup (m : List Item) (i : Nat) : Option Item :=
  m.find? (fun x => x.id == i)

/-- The `children` of the map entry with id `i` (empty when absent). -/
def childrenOf (m : List Item) (i : Nat) : List Nat :=
  ((lookup m i).map (·.children)).getD []

/-- Dictionary membership test `i in self.all`. -/
def memMap (m : List Item) (i : Nat) : Bool :=
  m.any (fun x => x.id == i)

/-! ### Grouping (`_group_children_by_type`, `_group_by_type`) -/

/-- One step of `_group_children_by_type`'s loop: append `it` to the bucket
of its type, creating the bucket (with `it`'s icon) on first encounter. -/
def addToGroups (gs : List WorkItemGroup) (it : Item) : List WorkItemGroup :=
  if gs.any (fun g => g.type == it.type) then
    gs.map (fun g =>
      if g.type == it.type then { g with items := g.items ++ [it.id] } else g)
  else
    gs ++ [{ type := it.type, icon := it.icon, items := [it.id] }]

/-- Embeds `_group_children_by_type` applied to a list of item objects. -/
def groupItems (its : List Item) : List WorkItemGroup :=
  its.foldl addToGroups []

/-- Dereference a list of item references against the map. -/
def resolve (m : List Item) (ids : List Nat) : List Item :=
  ids.filterMap (lookup m)

/-- Embeds `Hierarchy._group_children_by_type` (heirarchy_builder.py lines
50-61): group a `children` list by type, buckets in first-encounter order;
no reordering of an "Other" bucket happens here. -/
def groupChildrenByType (m : List Item) (children : List Nat) : List WorkItemGroup :=
  groupItems (resolve m children)

/-- One step of `_group_by_type`'s first loop: the `grouped_items` dict from
type to the list of items of that type, in first-encounter order. -/
def addToTypeLists (acc : List (String × List Item)) (it : Item) :
    List (String × List Item) :=
  if acc.any (fun p => p.1 == it.type) then
    acc.map (fun p => if p.1 == it.type then (p.1, p.2 ++ [it]) else p)
  else
    acc ++ [(it.type, [it])]

/-- `value[0].icon` of a type bucket (buckets are never empty). -/
def headIcon : List Item → String
  | [] => ""
  | it :: _ => it.icon

/-- The `WorkItemGroup(type=key, icon=value[0].icon, items=value)` list
built by `_group_by_type` before the "Other" adjustment. -/
def rawGroups (its : List Item) : List WorkItemGroup :=
  (its.foldl addToTypeLists []).map
    (fun p => { type := p.1, icon := headIcon p.2, items := p.2.map (·.id) })

/-- Embeds `grouped_children_list.remove(other_group)`.  `WorkItemGroup`
(complex_types.py) is a `@dataclass` whose fields are set only in a custom
`__init__`, so the generated `__eq__` compares empty field tuples and any
two instances compare equal; `list.remove` therefore always deletes the
FIRST bucket of the list, whatever `other_group` is. -/
def removeHeadGroup : List WorkItemGroup → List WorkItemGroup
  | [] => []
  | _ :: gs => gs

/-- The "Ensure 'Other' group is at the end of the list" step of
`_group_by_type`: `next(...)` is `find?`; when it hits, `remove` drops the
head bucket (degenerate dataclass equality) and `append` adds the "Other"
bucket at the end, duplicating it unless it was the head. -/
def moveOtherLast (gs : List WorkItemGroup) : List WorkItemGroup :=
  match gs.find? (fun g => g.type == "Other") with
  | none => gs
  | some og => removeHeadGroup gs ++ [og]

/-- Embeds `Hierarchy._group_by_type` (heirarchy_builder.py lines 63-87):
group a list of item references by type, then the "Other" adjustment,
which drops the first bucket and appends the "Other" bucket. -/
def groupByType (m : List Item) (ids : List Nat) : List WorkItemGroup :=
  moveOtherLast (rawGroups (resolve m ids))

/-! ### The recursive pass of `Hierarchy._build_hierarchy` -/

/-- Mutable state of `_build_hierarchy`: the item map, the `processed_ids`
set and the `root_items` list. -/
structure BuildSt where
  all : List Item
  processed : List Nat
  roots : List Nat
  deriving DecidableEq, Repr

/-- Embeds `if item not in parent.children: parent.children.append(item)`
on the map entry with id `p` (dataclass equality on map items coincides
with id equality, every id keying a single object). -/
def appendChild (m : List Item) (p c : Nat) : List Item :=
  m.map (fun x =>
    if x.id == p then
      (if c ∈ x.children then x else { x with children := x.children ++ [c] })
    else x)

/-- Embeds `if item not in self.root_items: self.root_items.append(item)`. -/
def addRoot (rs : List Nat) (i : Nat) : List Nat :=
  if i ∈ rs then rs else rs ++ [i]

/-- Embeds the guard `if item.parent_id and item.parent_id in self.all`. -/
def hasParentB (m : List Item) (it : Item) : Bool :=
  it.parent_id != 0 && memMap m it.parent_id

/-- Embeds `process_item` of `Hierarchy._build_hierarchy`
(heirarchy_builder.py lines 18-37).  The recursion through parents and
children is guarded by `processed_ids`; `fuel` bounds the depth of
unprocessed ids the recursion can visit (the fuel-sufficiency theorems show
any fuel at least the number of map entries is enough, so `none` models no
reachable behaviour of the source). -/
def processItem : Nat → Nat → BuildSt → Option BuildSt
  | 0, i, st => if i ∈ st.processed then some st else none
  | f + 1, i, st =>
    if i ∈ st.processed then some st
    else
      match lookup st.all i with
      | none => some st
      | some item =>
        let st1 : BuildSt := { st with processed := i :: st.processed }
        let st2 :=
          if hasParentB st1.all item then
            processItem f item.parent_id
              { st1 with all := appendChild st1.all item.parent_id i }
          else if item.orphan then some st1
          else some { st1 with roots := addRoot st1.roots i }
        match st2 with
        | none => none
        | some st3 =>
          if i == 0 then some st3
          else
            match lookup st3.all i with
            | none => some st3
            | some item2 =>
              item2.children.foldl (fun acc c =>
                match acc with
                | none => none
                | some stc => processItem f c stc) (some st3)

/-- The `for child in item.children: process_item(child)` loop, as run by
`processItem` on the children list read after the parent step. -/
def processChildren (fuel : Nat) (cs : List Nat) (st : BuildSt) : Option BuildSt :=
  cs.foldl (fun acc c =>
    match acc with
    | none => none
    | some stc => processItem fuel c stc) (some st)

/-- The `for item in all_items: process_item(item)` top-level loop. -/
def processTop (fuel : Nat) : List Nat → BuildSt → Option BuildSt
  | [], st => some st
  | i :: is, st =>
    match processItem fuel i st with
    | none => none
    | some st' => processTop fuel is st'

/-- The first pass of `Hierarchy._build_hierarchy` run on a fresh
`Hierarchy` object (`root_items = []`, `processed_ids = set()`), with fuel
equal to the number of map entries. -/
def processAll (m : List Item) : Option BuildSt :=
  processTop m.length (m.map (·.id)) { all := m, processed := [], roots := [] }

/-- The assignment
`item.children_by_type = self._group_children_by_type(item.children)`
for the root item with id `r`. -/
def setCBT (acc : List Item) (r : Nat) : List Item :=
  acc.map (fun x =>
    if x.id == r then
      { x with children_by_type := groupChildrenByType acc x.children }
    else x)

/-- The `for item in self.root_items: if item.id != 0: ...` loop that
populates `children_by_type` for every non-"Other" root. -/
def applyCBT : List Nat → List Item → List Item
  | [], acc => acc
  | r :: rs, acc => applyCBT rs (if r == 0 then acc else setCBT acc r)

/-- The observable result of constructing a `Hierarchy`: the final item
map, `self.root_items` and `self.by_type`. -/
structure HOut where
  all : List Item
  root_items : List Nat
  by_type : List WorkItemGroup
  deriving DecidableEq, Repr

/-- Embeds `Hierarchy.__init__` / `Hierarchy._build_hierarchy`
(heirarchy_builder.py lines 9-48) end to end. -/
def hierarchyBuild (m : List Item) : Option HOut :=
  match processAll m with
  | none => none
  | some st =>
    let all2 := applyCBT st.roots st.all
    some { all := all2, root_items := st.roots, by_type := groupByType all2 st.roots }

/-! ### `Work` operations (work.py) -/

/-- Embeds `Work._convert_to_hierarchical`: the `HierarchicalWorkItem`
constructor resets `children` and `children_by_type` to empty lists. -/
def convertToHierarchical (w : Item) : Item :=
  { w with children := [], children_by_type := [] }

/-- Embeds `Work.add` (work.py lines 154-159): insert keyed by id only when
the id is not already a key of `self.all`. -/
def addWorkItem (all : List Item) (w : Item) : List Item :=
  if memMap all w.id then all
  else all ++ [convertToHierarchical w]

/-- The icon URL given to the synthetic "Other" parent. -/
def otherIcon : String :=
  "https://tfsproduks1.visualstudio.com/_apis/wit/workItemIcons/icon_review?color=333333&v=2"

/-- Dictionary assignment `self.all[k] = v`. -/
def mapSet (m : List Item) (it : Item) : List Item :=
  if memMap m it.id then
    m.map (fun x => if x.id == it.id then it else x)
  else m ++ [it]

/-- Embeds `Work._create_other_parent` (work.py lines 214-239): collect the
orphaned items, and if any exist build the synthetic id-0 "Other" item,
store it in the map and reset each absorbed orphan. -/
def createOtherParent (m : List Item) : List Item :=
  let orphaned := m.filter (fun it => it.orphan && it.id != 0)
  if orphaned.isEmpty then m
  else
    let other : Item :=
      { id := 0, type := "Other", icon := otherIcon, parent_id := 0,
        root := true, orphan := false,
        children := orphaned.map (·.id),
        children_by_type := groupItems orphaned }
    (mapSet m other).map
      (fun x =>
        if x.orphan && x.id != 0 then { x with parent_id := 0, orphan := false }
        else x)

/-- Mutable state of `Work._work_item_tree`. -/
structure TreeSt where
  all : List Item
  roots : List Nat
  otherFound : Bool
  deriving DecidableEq, Repr

/-- One iteration of the `for item in all_items` loop of
`Work._work_item_tree`; the duplicated `item.parent_id != 0` conjunct
mirrors the redundant check in the source. -/
def treeStep (st : TreeSt) (i : Nat) : TreeSt :=
  match lookup st.all i with
  | none => st
  | some item =>
    if item.id == 0 then { st with otherFound := true }
    else if item.parent_id != 0 && memMap st.all item.parent_id
        && item.parent_id != 0 then
      { st with all := appendChild st.all item.parent_id item.id }
    else if item.root && !item.orphan then
      { st with roots := st.roots ++ [item.id] }
    else st

/-- Embeds `Work._work_item_tree` (work.py lines 241-260): rebuild
`self.root_items`, linking children and appending the "Other" parent (the
item with id 0) last when present. -/
def workItemTree (m : List Item) : List Item × List Nat :=
  let st := (m.map (·.id)).foldl treeStep { all := m, roots := [], otherFound := false }
  (st.all, if st.otherFound then st.roots ++ [0] else st.roots)

/-! ### Well-formedness of the item map -/

/-- Well-formedness of an item map as produced by the `Work` layer: ids are
unique (it is a dict keyed by id) and every child reference resolves to a
key of the map, each `children` list holding no duplicates. -/
def WFmap (m : List Item) : Prop :=
  (idsOf m).Nodup ∧ ∀ it ∈ m, (∀ c ∈ it.children, c ∈ idsOf m) ∧ it.children.Nodup

instance : DecidablePred WFmap := fun m => by
  unfold WFmap; infer_instance

/-! ### Correctness of the grouping folds -/

/-- One step of first-encounter type collection. -/
def addType (ts : List String) (t : String) : List String :=
  if t ∈ ts then ts else ts ++ [t]

/-- The distinct types of a list of items, in order of first encounter. -/
def firstTypes (its : List Item) : List String :=
  its.foldl (fun ts it => addType ts it.type) []

theorem mem_addType_self (ts : List String) (t : String) : t ∈ addType ts t := by
  unfold addType; split
  · assumption
  · simp

theorem mem_addType_of_mem {ts : List String} {s : String} (t : String)
    (h : s ∈ ts) : s ∈ addType ts t := by
  unfold addType; split
  · exact h
  · simp [h]

theorem mem_foldType_mono (its : List Item) {ts : List String} {s : String}
    (h : s ∈ ts) : s ∈ its.foldl (fun ts it => addType ts it.type) ts := by
  induction its generalizing ts with
  | nil => exact h
  | cons y ys ih => exact ih (mem_addType_of_mem y.type h)

theorem mem_foldType {x : Item} :
    ∀ {its : List Item}, x ∈ its →
      ∀ ts, x.type ∈ its.foldl (fun ts it => addType ts it.type) ts := by
  intro its
  induction its with
  | nil => intro hx; cases hx
  | cons y ys ih =>
    intro hx ts
    rcases List.mem_cons.mp hx with h | h
    · subst h
      exact mem_foldType_mono ys (mem_addType_self ts _)
    · exact ih h (addType ts y.type)

theorem notMem_foldType {its : List Item} {ts : List String} {t : String}
    (h : t ∉ its.foldl (fun ts it => addType ts it.type) ts) :
    ∀ x ∈ its, x.type ≠ t := by
  intro x hx heq
  exact h (heq ▸ mem_foldType hx ts)

/-- Invariant tying the accumulator of the grouping fold to the consumed
portion `pre` of the input: bucket types are the distinct types of `pre` in
first-encounter order, each bucket holds exactly the ids of the items of its
type in input order, and each bucket's icon is the first such item's icon. -/
def GroupsSpec (pre : List Item) (gs : List WorkItemGroup) : Prop :=
  (gs.map (·.type)).Nodup ∧
  gs.map (·.type) = firstTypes pre ∧
  ∀ g ∈ gs, g.items = (pre.filter (fun it => it.type == g.type)).map (·.id) ∧
    ∃ it0, pre.find? (fun it => it.type == g.type) = some it0 ∧ g.icon = it0.icon

theorem GroupsSpec_nil : GroupsSpec [] [] :=
  ⟨List.nodup_nil, rfl, by intro g hg; cases hg⟩

theorem firstTypes_append_one (pre : List Item) (it : Item) :
    firstTypes (pre ++ [it]) = addType (firstTypes pre) it.type := by
  unfold firstTypes
  rw [List.foldl_append]
  rfl

theorem GroupsSpec_step {pre : List Item} {gs : List WorkItemGroup} (it : Item)
    (h : GroupsSpec pre gs) : GroupsSpec (pre ++ [it]) (addToGroups gs it) := by
  obtain ⟨hnd, hty, hg⟩ := h
  by_cases hc : it.type ∈ gs.map (·.type)
  · -- the bucket for `it.type` already exists: update it in place
    have hany : gs.any (fun g => g.type == it.type) = true := by
      rw [List.any_eq_true]
      obtain ⟨g, hgmem, hgty⟩ := List.mem_map.mp hc
      exact ⟨g, hgmem, by simp [hgty]⟩
    have hmap : addToGroups gs it =
        gs.map (fun g => if g.type == it.type then
          { g with items := g.items ++ [it.id] } else g) := by
      unfold addToGroups; rw [if_pos hany]
    have htypes : (addToGroups gs it).map (·.type) = gs.map (·.type) := by
      rw [hmap, List.map_map]
      refine List.map_congr_left ?_
      intro g _
      show (if (g.type == it.type) = true then
        { g with items := g.items ++ [it.id] } else g).type = g.type
      by_cases hgt : (g.type == it.type) = true
      · rw [if_pos hgt]
      · rw [if_neg hgt]
    refine ⟨by rw [htypes]; exact hnd, ?_, ?_⟩
    · rw [htypes, hty, firstTypes_append_one, addType, if_pos (hty ▸ hc)]
    · intro g' hg'
      rw [hmap] at hg'
      obtain ⟨g, hgmem, rfl⟩ := List.mem_map.mp hg'
      by_cases hgt : (g.type == it.type) = true
      · have hgt' : g.type = it.type := by simpa using hgt
        obtain ⟨hitems, it0, hfind, hicon⟩ := hg g hgmem
        rw [if_pos hgt]
        refine ⟨?_, it0, ?_, hicon⟩
        · show g.items ++ [it.id] = _
          rw [hitems, List.filter_append]
          simp [hgt']
        · show (pre ++ [it]).find? (fun x => x.type == g.type) = some it0
          rw [List.find?_append, hfind]
          rfl
      · rw [if_neg hgt]
        obtain ⟨hitems, it0, hfind, hicon⟩ := hg g hgmem
        have hgt' : g.type ≠ it.type := by simpa using hgt
        have hne : (it.type == g.type) = false := by
          rw [beq_eq_false_iff_ne]
          exact Ne.symm hgt'
        refine ⟨?_, it0, ?_, hicon⟩
        · rw [hitems, List.filter_append]
          simp [hne]
        · rw [List.find?_append, hfind]
          rfl
  · -- first encounter of `it.type`: a fresh bucket is appended
    have hany : gs.any (fun g => g.type == it.type) = false := by
      rw [Bool.eq_false_iff]
      intro hx
      obtain ⟨g, hgmem, hgty⟩ := List.any_eq_true.mp hx
      exact hc (List.mem_map.mpr ⟨g, hgmem, by simpa using hgty⟩)
    have hmap : addToGroups gs it =
        gs ++ [{ type := it.type, icon := it.icon, items := [it.id] }] := by
      unfold addToGroups; rw [hany]; rfl
    have hnotin : it.type ∉ firstTypes pre := hty ▸ hc
    have hnone : ∀ x ∈ pre, x.type ≠ it.type := notMem_foldType hnotin
    refine ⟨?_, ?_, ?_⟩
    · rw [hmap, List.map_append]
      simp only [List.map_cons, List.map_nil]
      rw [List.nodup_append]
      exact ⟨hnd, List.nodup_singleton _, by
        intro t ht ht'
        simp only [List.mem_singleton] at ht'
        exact hc (ht' ▸ ht)⟩
    · rw [hmap, List.map_append, hty, firstTypes_append_one, addType, if_neg hnotin]
      rfl
    · intro g' hg'
      rw [hmap] at hg'
      rcases List.mem_append.mp hg' with hgs | hnew
      · obtain ⟨hitems, it0, hfind, hicon⟩ := hg g' hgs
        have hne : (it.type == g'.type) = false := by
          rw [beq_eq_false_iff_ne]
          intro h0
          exact hc (h0 ▸ List.mem_map.mpr ⟨g', hgs, rfl⟩)
        refine ⟨?_, it0, ?_, hicon⟩
        · rw [hitems, List.filter_append]
          simp [hne]
        · rw [List.find?_append, hfind]
          rfl
      · have hnew' : g' = { type := it.type, icon := it.icon, items := [it.id] } := by
          simpa using hnew
        subst hnew'
        have hfilpre : pre.filter (fun x => x.type == it.type) = [] := by
          rw [List.filter_eq_nil_iff]
          intro x hx
          simp [hnone x hx]
        have hfindpre : pre.find? (fun x => x.type == it.type) = none := by
          rw [List.find?_eq_none]
          intro x hx
          simp [hnone x hx]
        refine ⟨?_, it, ?_, rfl⟩
        · show [it.id] = _
          rw [List.filter_append, hfilpre]
          simp
        · show (pre ++ [it]).find? (fun x => x.type == it.type) = some it
          rw [List.find?_append, hfindpre]
          simp

theorem GroupsSpec_foldl :
    ∀ (its pre : List Item) (gs : List WorkItemGroup), GroupsSpec pre gs →
      GroupsSpec (pre ++ its) (its.foldl addToGroups gs)
  | [], pre, gs, h => by simpa using h
  | it :: its, pre, gs, h => by
    have h' := GroupsSpec_foldl its (pre ++ [it]) (addToGroups gs it) (GroupsSpec_step it h)
    simpa using h'

/-- The one-level grouping fold satisfies its full specification. -/
theorem groupItems_spec (its : List Item) : GroupsSpec its (groupItems its) := by
  have h := GroupsSpec_foldl its [] [] GroupsSpec_nil
  simpa [groupItems] using h

/-- Conversion of a `_group_by_type` dict entry into its `WorkItemGroup`. -/
def pairToGroup (p : String × List Item) : WorkItemGroup :=
  { type := p.1, icon := headIcon p.2, items := p.2.map (·.id) }

theorem any_map_pairToGroup (acc : List (String × List Item)) (t : String) :
    ((acc.map pairToGroup).any (fun g => g.type == t)) = acc.any (fun p => p.1 == t) := by
  induction acc with
  | nil => rfl
  | cons q qs ih => simp only [List.map_cons, List.any_cons, ih, pairToGroup]

theorem addToTypeLists_toGroup (acc : List (String × List Item)) (it : Item)
    (hne : ∀ p ∈ acc, p.2 ≠ []) :
    (addToTypeLists acc it).map pairToGroup = addToGroups (acc.map pairToGroup) it ∧
    ∀ p ∈ addToTypeLists acc it, p.2 ≠ [] := by
  have hany := any_map_pairToGroup acc it.type
  by_cases hc : acc.any (fun p => p.1 == it.type) = true
  · have hl : addToTypeLists acc it =
        acc.map (fun p => if p.1 == it.type then (p.1, p.2 ++ [it]) else p) := by
      unfold addToTypeLists; rw [if_pos hc]
    have hr : addToGroups (acc.map pairToGroup) it =
        (acc.map pairToGroup).map (fun g => if g.type == it.type then
          { g with items := g.items ++ [it.id] } else g) := by
      unfold addToGroups; rw [if_pos (hany.trans hc)]
    constructor
    · rw [hl, hr, List.map_map, List.map_map]
      refine List.map_congr_left ?_
      intro p hp
      by_cases hpt : (p.1 == it.type) = true
      · obtain ⟨a, l, hpl⟩ : ∃ a l, p.2 = a :: l := by
          cases hq : p.2 with
          | nil => exact absurd hq (hne p hp)
          | cons a l => exact ⟨a, l, rfl⟩
        have hpt2 : p.1 = it.type := by simpa using hpt
        simp [pairToGroup, hpt2, hpl, headIcon]
      · have hpt2 : ¬p.1 = it.type := by simpa using hpt
        simp [pairToGroup, hpt2]
    · intro p hp
      rw [hl] at hp
      obtain ⟨q, hq, rfl⟩ := List.mem_map.mp hp
      by_cases hqt : (q.1 == it.type) = true
      · rw [if_pos hqt]
        simp
      · rw [if_neg hqt]
        exact hne q hq
  · have hc' : acc.any (fun p => p.1 == it.type) = false := Bool.eq_false_iff.mpr hc
    have hl : addToTypeLists acc it = acc ++ [(it.type, [it])] := by
      unfold addToTypeLists; rw [hc']; rfl
    have hr : addToGroups (acc.map pairToGroup) it =
        acc.map pairToGroup ++ [{ type := it.type, icon := it.icon, items := [it.id] }] := by
      unfold addToGroups; rw [hany.trans hc']; rfl
    constructor
    · rw [hl, hr, List.map_append]
      rfl
    · intro p hp
      rw [hl] at hp
      rcases List.mem_append.mp hp with h | h
      · exact hne p h
      · simp only [List.mem_singleton] at h
        subst h
        simp

theorem typeListsFold_toGroup :
    ∀ (its : List Item) (acc : List (String × List Item)),
      (∀ p ∈ acc, p.2 ≠ []) →
      (its.foldl addToTypeLists acc).map pairToGroup
        = its.foldl addToGroups (acc.map pairToGroup)
  | [], _, _ => rfl
  | it :: its, acc, hne => by
    obtain ⟨heq, hne'⟩ := addToTypeLists_toGroup acc it hne
    simp only [List.foldl_cons]
    rw [typeListsFold_toGroup its _ hne', heq]

/-- The bucket-assembly phases of `_group_by_type` and
`_group_children_by_type` produce identical group lists. -/
theorem rawGroups_eq_groupItems (its : List Item) : rawGroups its = groupItems its := by
  unfold rawGroups groupItems
  have h := typeListsFold_toGroup its [] (by intro p hp; cases hp)
  simpa [pairToGroup] using h

/-! ### The "Other"-last adjustment of `_group_by_type` -/

theorem removeHeadGroup_subset {gs : List WorkItemGroup} {g : WorkItemGroup}
    (h : g ∈ removeHeadGroup gs) : g ∈ gs := by
  cases gs with
  | nil => cases h
  | cons y ys => exact List.mem_cons_of_mem y h

theorem removeHeadGroup_map_type (gs : List WorkItemGroup) :
    (removeHeadGroup gs).map (·.type) = (gs.map (·.type)).tail := by
  cases gs <;> rfl

/-- Every bucket the adjustment returns was among the input buckets (the
converse fails: the head bucket is dropped when an "Other" bucket is
found). -/
theorem mem_moveOtherLast_subset {gs : List WorkItemGroup} {g : WorkItemGroup}
    (h : g ∈ moveOtherLast gs) : g ∈ gs := by
  unfold moveOtherLast at h
  cases hfind : gs.find? (fun g => g.type == "Other") with
  | none =>
    rw [hfind] at h
    exact h
  | some og =>
    rw [hfind] at h
    dsimp only at h
    rcases List.mem_append.mp h with h0 | h0
    · exact removeHeadGroup_subset h0
    · simp only [List.mem_singleton] at h0
      exact h0 ▸ List.mem_of_find?_eq_some hfind

/-- If no bucket has type "Other", the adjustment is the identity. -/
theorem moveOtherLast_no_other {gs : List WorkItemGroup}
    (h : ∀ g ∈ gs, g.type ≠ "Other") : moveOtherLast gs = gs := by
  unfold moveOtherLast
  cases hfind : gs.find? (fun g => g.type == "Other") with
  | none => rfl
  | some og =>
    have hog : og ∈ gs := List.mem_of_find?_eq_some hfind
    have hogt : og.type = "Other" := by simpa using List.find?_some hfind
    exact absurd hogt (h og hog)

/-- When an "Other" bucket exists, the adjustment drops the head bucket
and appends the "Other" bucket: the result's bucket types are the tail of
the input's bucket types followed by "Other". -/
theorem moveOtherLast_types_other {gs : List WorkItemGroup}
    (h : ∃ g ∈ gs, g.type = "Other") :
    (moveOtherLast gs).map (·.type) = (gs.map (·.type)).tail ++ ["Other"] := by
  unfold moveOtherLast
  cases hfind : gs.find? (fun g => g.type == "Other") with
  | none =>
    obtain ⟨g, hg, hgt⟩ := h
    have hnone := List.find?_eq_none.mp hfind g hg
    exact absurd (by simp [hgt] : (g.type == "Other") = true) hnone
  | some og =>
    have hogt : og.type = "Other" := by simpa using List.find?_some hfind
    dsimp only
    rw [List.map_append, removeHeadGroup_map_type]
    simp [hogt]

theorem moveOtherLast_other_last {gs : List WorkItemGroup}
    (h : ∃ g ∈ moveOtherLast gs, g.type = "Other") :
    ∃ og, (moveOtherLast gs).getLast? = some og ∧ og.type = "Other" := by
  unfold moveOtherLast at h ⊢
  cases hfind : gs.find? (fun g => g.type == "Other") with
  | none =>
    rw [hfind] at h
    obtain ⟨g, hg, hgt⟩ := h
    have hnone := List.find?_eq_none.mp hfind g hg
    exact absurd (by simp [hgt] : (g.type == "Other") = true) hnone
  | some og =>
    rw [hfind] at h
    dsimp only at h ⊢
    have hogt : og.type = "Other" := by simpa using List.find?_some hfind
    exact ⟨og, List.getLast?_concat _, hogt⟩

/-! ### Claim C2: the grouping partition and bucket order -/

/-- Helper to build a concrete test item. -/
def mkItem (i : Nat) (t : String) (p : Nat) (r orph : Bool) : Item :=
  { id := i, type := t, icon := t ++ "-icon", parent_id := p, root := r,
    orphan := orph, children := [], children_by_type := [] }

/-- Concrete input with an "Other"-typed item encountered first. -/
def c2map : List Item :=
  [mkItem 1 "Other" 0 true false, mkItem 2 "Bug" 0 true false]

/-- Concrete input with a "Bug"-typed item encountered before the
"Other"-typed one, exposing the head-bucket drop of `_group_by_type`. -/
def c2bmap : List Item :=
  [mkItem 1 "Bug" 0 true false, mkItem 2 "Other" 0 true false]

/-- Claim C2 (counterexample): `_group_by_type` neither partitions its
input nor keeps buckets in first-encounter order when an "Other" bucket
exists and is not first: on input types ["Bug", "Other"] the `remove`
call deletes the head bucket (all `WorkItemGroup` instances compare
equal), so the result's buckets are ["Other", "Other"] and the "Bug" item
(id 1) appears in no bucket at all. -/
theorem c2_counterexample :
    firstTypes (resolve c2bmap [1, 2]) = ["Bug", "Other"] ∧
    (groupByType c2bmap [1, 2]).map (·.type) = ["Other", "Other"] ∧
    (∀ g ∈ groupByType c2bmap [1, 2], 1 ∉ g.items) := by
  refine ⟨by decide, by decide, by decide⟩

/-- Claim C2 (amended): `_group_children_by_type` partitions its input by
type — every input item lands in the bucket of its type, buckets hold
exactly the ids of their type's items in input order, each bucket's icon
is the first such item's icon, and buckets appear in first-encounter
order.  `_group_by_type` builds the same buckets and every bucket it
returns satisfies the same per-bucket item/icon description, but its
"Other" adjustment calls `list.remove` on a dataclass whose instances all
compare equal: with no "Other" bucket it returns exactly the
first-encounter grouping, and with an "Other" bucket present it drops the
FIRST bucket and appends the "Other" bucket, so the result's bucket types
are the tail of the first-encounter types followed by "Other" (the first
type's bucket is lost unless it is itself the "Other" bucket). -/
theorem c2_grouping_partition (m : List Item) (ids : List Nat) :
    ((groupChildrenByType m ids).map (·.type)).Nodup ∧
    (groupChildrenByType m ids).map (·.type) = firstTypes (resolve m ids) ∧
    (∀ g ∈ groupChildrenByType m ids,
      g.items = ((resolve m ids).filter (fun it => it.type == g.type)).map (·.id) ∧
      ∃ it0, (resolve m ids).find? (fun it => it.type == g.type) = some it0 ∧
        g.icon = it0.icon) ∧
    (∀ it ∈ resolve m ids, it.type ∈ (groupChildrenByType m ids).map (·.type)) ∧
    (∀ g ∈ groupByType m ids,
      g.items = ((resolve m ids).filter (fun it => it.type == g.type)).map (·.id) ∧
      ∃ it0, (resolve m ids).find? (fun it => it.type == g.type) = some it0 ∧
        g.icon = it0.icon) ∧
    ("Other" ∉ firstTypes (resolve m ids) →
      groupByType m ids = groupChildrenByType m ids) ∧
    ("Other" ∈ firstTypes (resolve m ids) →
      (groupByType m ids).map (·.type)
        = (firstTypes (resolve m ids)).tail ++ ["Other"]) := by
  obtain ⟨hnd, hty, hg⟩ := groupItems_spec (resolve m ids)
  have hgc : groupChildrenByType m ids = groupItems (resolve m ids) := rfl
  have hgbt : groupByType m ids = moveOtherLast (groupItems (resolve m ids)) := by
    unfold groupByType
    rw [rawGroups_eq_groupItems]
  refine ⟨hgc ▸ hnd, hgc ▸ hty, hgc ▸ hg, ?_, ?_, ?_, ?_⟩
  · intro it hit
    rw [hgc, hty]
    exact mem_foldType hit []
  · intro g hgmem
    rw [hgbt] at hgmem
    exact hg g (mem_moveOtherLast_subset hgmem)
  · intro hno
    rw [hgbt, hgc]
    refine moveOtherLast_no_other ?_
    intro g hgmem heq
    refine hno ?_
    rw [← hty, ← heq]
    exact List.mem_map.mpr ⟨g, hgmem, rfl⟩
  · intro hyes
    rw [← hty] at hyes
    obtain ⟨g, hgmem, hgty⟩ := List.mem_map.mp hyes
    rw [hgbt, moveOtherLast_types_other ⟨g, hgmem, hgty⟩, hty]

/-- Witness for `c2_grouping_partition` at a concrete input. -/
theorem c2_grouping_partition_witness :
    ((groupChildrenByType c2bmap [1, 2]).map (·.type)).Nodup ∧
    ({ type := "Bug", icon := "Bug-icon", items := [1] } : WorkItemGroup).items
      = ((resolve c2bmap [1, 2]).filter
          (fun it => it.type == "Bug")).map (·.id) ∧
    (groupByType c2bmap [1, 2]).map (·.type)
      = (firstTypes (resolve c2bmap [1, 2])).tail ++ ["Other"] := by
  have h := c2_grouping_partition c2bmap [1, 2]
  refine ⟨h.1, ?_, h.2.2.2.2.2.2 (by decide)⟩
  exact (h.2.2.1 { type := "Bug", icon := "Bug-icon", items := [1] } (by decide)).1

/-! ### Claim C3: the "Other"-last rule -/

/-- Concrete input refuting "Other"-last for the per-node grouping: a root
whose children have types ["Other", "Bug"]. -/
def c3map : List Item :=
  [mkItem 1 "Epic" 0 true false, mkItem 2 "Other" 1 false false,
   mkItem 3 "Bug" 1 false false]

/-- Claim C3 (counterexample): after running the builder, the root's
`children_by_type` (computed by `_group_children_by_type`) contains an
"Other" bucket that is first, not last — the per-node grouping performs no
"Other"-last adjustment. -/
theorem c3_counterexample :
    (hierarchyBuild c3map).map
        (fun o => (lookup o.all 1).map (fun it => it.children_by_type.map (·.type)))
      = some (some ["Other", "Bug"]) := by
  decide

/-- Claim C3 (amended): every `_group_by_type` result containing an
"Other"-typed bucket has it as the last element; the per-node
`_group_children_by_type` results make no such guarantee. -/
theorem c3_group_by_type_other_last (m : List Item) (ids : List Nat)
    (h : ∃ g ∈ groupByType m ids, g.type = "Other") :
    ∃ og, (groupByType m ids).getLast? = some og ∧ og.type = "Other" := by
  have hgbt : groupByType m ids = moveOtherLast (rawGroups (resolve m ids)) := rfl
  rw [hgbt] at h ⊢
  exact moveOtherLast_other_last h

/-- Witness for `c3_group_by_type_other_last` at a concrete input. -/
theorem c3_group_by_type_other_last_witness :
    ∃ og, (groupByType c2map [1, 2]).getLast? = some og ∧ og.type = "Other" :=
  c3_group_by_type_other_last c2map [1, 2]
    ⟨{ type := "Other", icon := "Other-icon", items := [1] }, by decide, rfl⟩

/-! ### Claim C8: duplicate insertion into the item map is a no-op -/

/-- Claim C8: adding a work item whose id is already a key of the map
leaves the map unchanged (the existing entry is not replaced), and adding
any item twice has the same effect on the map as adding it once. -/
theorem c8_add_duplicate_noop (all : List Item) (w v : Item)
    (h : memMap all w.id = true) :
    addWorkItem all w = all ∧
    addWorkItem (addWorkItem all v) v = addWorkItem all v := by
  constructor
  · unfold addWorkItem
    rw [if_pos h]
  · by_cases hv : memMap all v.id = true
    · simp [addWorkItem, hv]
    · have hv' : memMap all v.id = false := Bool.eq_false_iff.mpr hv
      have h1 : addWorkItem all v = all ++ [convertToHierarchical v] := by
        unfold addWorkItem
        rw [hv']
        rfl
      have h2 : memMap (all ++ [convertToHierarchical v]) v.id = true := by
        unfold memMap at *
        rw [List.any_append]
        have : (convertToHierarchical v).id == v.id := by
          unfold convertToHierarchical
          simp
        simp [this]
      rw [h1]
      unfold addWorkItem
      rw [if_pos h2]

/-- Witness for `c8_add_duplicate_noop` at a concrete input. -/
theorem c8_add_duplicate_noop_witness :
    addWorkItem [mkItem 7 "Bug" 0 true false] (mkItem 7 "Task" 3 false true)
      = [mkItem 7 "Bug" 0 true false] ∧
    addWorkItem (addWorkItem [mkItem 7 "Bug" 0 true false] (mkItem 8 "Task" 0 false false))
        (mkItem 8 "Task" 0 false false)
      = addWorkItem [mkItem 7 "Bug" 0 true false] (mkItem 8 "Task" 0 false false) :=
  c8_add_duplicate_noop [mkItem 7 "Bug" 0 true false] (mkItem 7 "Task" 3 false true)
    (mkItem 8 "Task" 0 false false) (by decide)

/-! ### Claim C9: the empty item map -/

/-- Claim C9: hierarchy construction and grouping on an empty item map
yield an empty root list, an empty map and an empty grouped-by-type list,
with no error (the construction returns a value). -/
theorem c9_empty_map :
    hierarchyBuild [] = some { all := [], root_items := [], by_type := [] } ∧
    groupByType [] [] = [] ∧
    groupChildrenByType [] [] = [] := by
  refine ⟨rfl, rfl, rfl⟩

/-! ### The synthetic "Other" parent (`_create_other_parent`, `_work_item_tree`) -/

theorem find?_map_pred_eq {p : Item → Bool} {g : Item → Item}
    (hg : ∀ x, p (g x) = p x) :
    ∀ l : List Item, (l.map g).find? p = (l.find? p).map g := by
  intro l
  induction l with
  | nil => rfl
  | cons a l ih =>
    rw [List.map_cons]
    by_cases hp : p a = true
    · rw [List.find?_cons_of_pos l hp, List.find?_cons_of_pos (l.map g) (by rw [hg]; exact hp)]
      rfl
    · rw [List.find?_cons_of_neg l hp, List.find?_cons_of_neg (l.map g) (by rw [hg]; exact hp)]
      exact ih

theorem lookup_of_memMap {m : List Item} {i : Nat} (h : memMap m i = true) :
    ∃ it, lookup m i = some it ∧ it.id = i := by
  unfold memMap at h
  obtain ⟨x, hx, hpx⟩ := List.any_eq_true.mp h
  have hsome : (m.find? (fun x => x.id == i)).isSome :=
    List.find?_isSome.mpr ⟨x, hx, hpx⟩
  obtain ⟨it, hit⟩ := Option.isSome_iff_exists.mp hsome
  exact ⟨it, hit, by simpa using List.find?_some hit⟩

theorem memMap_of_idsOf {m : List Item} {i : Nat} (h : i ∈ idsOf m) :
    memMap m i = true := by
  obtain ⟨x, hx, hxi⟩ := List.mem_map.mp h
  exact List.any_eq_true.mpr ⟨x, hx, by simp [hxi]⟩

theorem idsOf_memMap {m : List Item} {i : Nat} (h : memMap m i = true) :
    i ∈ idsOf m := by
  obtain ⟨x, hx, hpx⟩ := List.any_eq_true.mp h
  exact List.mem_map.mpr ⟨x, hx, by simpa using hpx⟩

/-- The predicate selecting the orphans absorbed by the "Other" parent. -/
def orphanP (it : Item) : Bool := it.orphan && it.id != 0

/-- The reset applied to each absorbed orphan. -/
def orphanReset (x : Item) : Item :=
  if orphanP x then { x with parent_id := 0, orphan := false } else x

theorem createOtherParent_eq (m : List Item) :
    createOtherParent m =
      (if (m.filter orphanP).isEmpty then m
       else (mapSet m
          { id := 0, type := "Other", icon := otherIcon, parent_id := 0,
            root := true, orphan := false,
            children := (m.filter orphanP).map (·.id),
            children_by_type := groupItems (m.filter orphanP) }).map orphanReset) := by
  unfold createOtherParent orphanReset orphanP
  rfl

/-- If no item is a true orphan, `_create_other_parent` changes nothing. -/
theorem createOtherParent_no_orphans {m : List Item}
    (h : ∀ it ∈ m, orphanP it = false) : createOtherParent m = m := by
  rw [createOtherParent_eq]
  rw [if_pos]
  rw [List.isEmpty_iff]
  exact List.filter_eq_nil_iff.mpr (by
    intro it hit
    simp [h it hit])

/-- If some item is a true orphan, `_create_other_parent` installs the
synthetic id-0 "Other" item: type "Other", a root, not an orphan, its
children exactly the collected orphans in map order, its
`children_by_type` the grouping of those orphans; and every absorbed
orphan is reset to `parent_id = 0`, `orphan = false`. -/
theorem createOtherParent_spec {m : List Item} {w : Item}
    (hw : w ∈ m) (hwo : orphanP w = true) :
    (∃ other, lookup (createOtherParent m) 0 = some other ∧
      other.type = "Other" ∧ other.root = true ∧ other.orphan = false ∧
      other.children = (m.filter orphanP).map (·.id) ∧
      other.children_by_type = groupItems (m.filter orphanP)) ∧
    (∀ it ∈ m, orphanP it = true →
      ({ it with parent_id := 0, orphan := false } : Item) ∈ createOtherParent m) ∧
    (∀ it ∈ createOtherParent m, orphanP it = false) := by
  have hne : (m.filter orphanP).isEmpty = false := by
    rw [Bool.eq_false_iff]
    intro hemp
    rw [List.isEmpty_iff] at hemp
    have := List.filter_eq_nil_iff.mp hemp w hw
    rw [hwo] at this
    exact this rfl
  set other : Item :=
    { id := 0, type := "Other", icon := otherIcon, parent_id := 0,
      root := true, orphan := false,
      children := (m.filter orphanP).map (·.id),
      children_by_type := groupItems (m.filter orphanP) } with hother
  have hstep : createOtherParent m = (mapSet m other).map orphanReset := by
    rw [createOtherParent_eq, hne]
    rfl
  have hresetP : ∀ x, (fun x => x.id == (0 : Nat)) (orphanReset x)
      = (fun x => x.id == (0 : Nat)) x := by
    intro x
    unfold orphanReset
    by_cases hx : orphanP x = true
    · rw [if_pos hx]
    · rw [if_neg hx]
  have hlookup0 : lookup (mapSet m other) 0 = some other := by
    unfold mapSet
    by_cases hmem : memMap m other.id = true
    · rw [if_pos hmem]
      have hsubP : ∀ x, (fun x => x.id == (0 : Nat)) (if x.id == other.id then other else x)
          = (fun x => x.id == (0 : Nat)) x := by
        intro x
        by_cases hx : (x.id == other.id) = true
        · rw [if_pos hx]
          have : x.id = 0 := by simpa [hother] using hx
          simp [hother, this]
        · rw [if_neg hx]
      rw [show (fun x => if x.id == other.id then other else x) =
          (fun x => if x.id == other.id then other else x) from rfl]
      unfold lookup
      rw [find?_map_pred_eq hsubP m]
      obtain ⟨it, hit, hitid⟩ := lookup_of_memMap hmem
      unfold lookup at hit
      rw [hit]
      have hbeq : (it.id == other.id) = true := by simp [hother, hitid]
      show some (if (it.id == other.id) = true then other else it) = some other
      rw [if_pos hbeq]
    · rw [if_neg hmem]
      have hmem' : memMap m (0 : Nat) = false := by
        rw [Bool.eq_false_iff]
        intro hx
        exact (Bool.eq_false_iff.mp (Bool.eq_false_iff.mpr hmem)) (by simpa [hother] using hx)
      unfold lookup
      rw [List.find?_append]
      have hfn : m.find? (fun x => x.id == (0 : Nat)) = none := by
        rw [List.find?_eq_none]
        intro x hx hpx
        have : memMap m 0 = true := List.any_eq_true.mpr ⟨x, hx, hpx⟩
        rw [hmem'] at this
        cases this
      rw [hfn]
      simp [hother]
  refine ⟨⟨other, ?_, rfl, rfl, rfl, rfl, rfl⟩, ?_, ?_⟩
  · rw [hstep]
    unfold lookup
    rw [find?_map_pred_eq hresetP (mapSet m other)]
    unfold lookup at hlookup0
    rw [hlookup0]
    have : orphanReset other = other := by
      unfold orphanReset orphanP
      simp [hother]
    simp [this]
  · intro it hit hito
    rw [hstep]
    have hitmem : it ∈ mapSet m other := by
      unfold mapSet
      by_cases hmem : memMap m other.id = true
      · rw [if_pos hmem]
        refine List.mem_map.mpr ⟨it, hit, ?_⟩
        have : (it.id == other.id) = false := by
          rw [beq_eq_false_iff_ne]
          intro h0
          unfold orphanP at hito
          rw [h0] at hito
          simp [hother] at hito
        rw [this]
        rfl
      · rw [if_neg hmem]
        exact List.mem_append.mpr (Or.inl hit)
    refine List.mem_map.mpr ⟨it, hitmem, ?_⟩
    unfold orphanReset
    rw [if_pos hito]
  · intro it hitm
    rw [hstep] at hitm
    obtain ⟨x, _, rfl⟩ := List.mem_map.mp hitm
    unfold orphanReset
    by_cases hx : orphanP x = true
    · rw [if_pos hx]
      unfold orphanP
      simp
    · rw [if_neg hx]
      exact Bool.eq_false_iff.mpr hx

theorem idsOf_map_id_pres {m : List Item} {g : Item → Item}
    (hg : ∀ x, (g x).id = x.id) : idsOf (m.map g) = idsOf m := by
  unfold idsOf
  rw [List.map_map]
  exact List.map_congr_left (fun x _ => hg x)

theorem appendChild_ids (m : List Item) (p c : Nat) :
    idsOf (appendChild m p c) = idsOf m := by
  unfold appendChild
  refine idsOf_map_id_pres ?_
  intro x
  by_cases hx : (x.id == p) = true
  · rw [if_pos hx]
    by_cases hc : c ∈ x.children
    · rw [if_pos hc]
    · rw [if_neg hc]
  · rw [if_neg hx]

theorem treeStep_ids (st : TreeSt) (i : Nat) :
    idsOf (treeStep st i).all = idsOf st.all := by
  unfold treeStep
  cases hfind : lookup st.all i with
  | none => rfl
  | some item =>
    dsimp only
    by_cases h0 : (item.id == 0) = true
    · rw [if_pos h0]
    · rw [if_neg h0]
      by_cases hpar : (item.parent_id != 0 && memMap st.all item.parent_id
          && item.parent_id != 0) = true
      · rw [if_pos hpar]
        exact appendChild_ids st.all item.parent_id item.id
      · rw [if_neg hpar]
        by_cases hroot : (item.root && !item.orphan) = true
        · rw [if_pos hroot]
        · rw [if_neg hroot]

theorem treeStep_otherFound (st : TreeSt) (i : Nat)
    (h : st.otherFound = true) : (treeStep st i).otherFound = true := by
  unfold treeStep
  cases hfind : lookup st.all i with
  | none => exact h
  | some item =>
    dsimp only
    by_cases h0 : (item.id == 0) = true
    · rw [if_pos h0]
    · rw [if_neg h0]
      by_cases hpar : (item.parent_id != 0 && memMap st.all item.parent_id
          && item.parent_id != 0) = true
      · rw [if_pos hpar]
        exact h
      · rw [if_neg hpar]
        by_cases hroot : (item.root && !item.orphan) = true
        · rw [if_pos hroot]
          exact h
        · rw [if_neg hroot]
          exact h

theorem treeStep_zero (st : TreeSt) (h : memMap st.all 0 = true) :
    (treeStep st 0).otherFound = true := by
  obtain ⟨it, hit, hitid⟩ := lookup_of_memMap h
  unfold treeStep
  rw [hit]
  dsimp only
  rw [if_pos (by simp [hitid] : (it.id == 0) = true)]

theorem treeFold_otherFound_mono :
    ∀ (ids : List Nat) (st : TreeSt), st.otherFound = true →
      (ids.foldl treeStep st).otherFound = true
  | [], _, h => h
  | i :: is, st, h =>
    treeFold_otherFound_mono is (treeStep st i) (treeStep_otherFound st i h)

theorem treeFold_otherFound :
    ∀ (ids : List Nat) (st : TreeSt), 0 ∈ ids → memMap st.all 0 = true →
      (ids.foldl treeStep st).otherFound = true
  | [], _, h, _ => absurd h (List.not_mem_nil 0)
  | i :: is, st, h, hmem => by
    rw [List.foldl_cons]
    rcases List.mem_cons.mp h with h0 | h0
    · subst h0
      exact treeFold_otherFound_mono is _ (treeStep_zero st hmem)
    · refine treeFold_otherFound is (treeStep st i) h0 ?_
      refine memMap_of_idsOf ?_
      rw [treeStep_ids]
      exact idsOf_memMap hmem

/-- When the map holds an id-0 "Other" item, `_work_item_tree` appends it
to the root list last. -/
theorem workItemTree_other_last {m : List Item} (h : memMap m 0 = true) :
    ∃ rs, (workItemTree m).2 = rs ++ [0] := by
  have hfound := treeFold_otherFound (m.map (·.id))
    { all := m, roots := [], otherFound := false }
    (show 0 ∈ m.map (·.id) from idsOf_memMap h) h
  unfold workItemTree
  dsimp only
  rw [hfound]
  exact ⟨_, rfl⟩

theorem memMap_of_lookup {m : List Item} {i : Nat} {it : Item}
    (h : lookup m i = some it) : memMap m i = true := by
  unfold lookup at h
  have h1 := List.mem_of_find?_eq_some h
  have h2 := List.find?_some h
  exact List.any_eq_true.mpr ⟨it, h1, h2⟩

/-- Claim C1: the synthetic "Other" item is created exactly when some item
with `orphan = true` and `id ≠ 0` exists: with no such item the map is left
unchanged; with one, the id-0 entry of the resulting map is the synthetic
item with `type = "Other"`, `root = true`, `orphan = false`, children
exactly the collected orphans, every absorbed orphan is reset to
`parent_id = 0` and `orphan = false`, and `_work_item_tree` appends the
"Other" item to the end of the root list. -/
theorem c1_other_parent (m : List Item) :
    ((¬∃ w ∈ m, w.orphan = true ∧ w.id ≠ 0) → createOtherParent m = m) ∧
    (∀ w ∈ m, w.orphan = true → w.id ≠ 0 →
      (∃ other, lookup (createOtherParent m) 0 = some other ∧
        other.type = "Other" ∧ other.root = true ∧ other.orphan = false ∧
        other.children = (m.filter orphanP).map (·.id)) ∧
      (∀ it ∈ m, it.orphan = true → it.id ≠ 0 →
        ({ it with parent_id := 0, orphan := false } : Item) ∈ createOtherParent m) ∧
      (∃ rs, (workItemTree (createOtherParent m)).2 = rs ++ [0])) := by
  constructor
  · intro hno
    refine createOtherParent_no_orphans ?_
    intro it hit
    unfold orphanP
    rcases hb : it.orphan with _ | _
    · rfl
    · rcases hc : (it.id != 0) with _ | _
      · rfl
      · exact absurd ⟨it, hit, hb, by simpa using hc⟩ hno
  · intro w hw hworph hwid
    have hwo : orphanP w = true := by
      unfold orphanP
      rw [hworph]
      simpa using hwid
    obtain ⟨⟨other, hlook, hty, hroot, horph, hch, _⟩, hreset, _⟩ :=
      createOtherParent_spec hw hwo
    refine ⟨⟨other, hlook, hty, hroot, horph, hch⟩, ?_, ?_⟩
    · intro it hit hitorph hitid
      refine hreset it hit ?_
      unfold orphanP
      rw [hitorph]
      simpa using hitid
    · exact workItemTree_other_last (memMap_of_lookup hlook)

/-- Concrete input for the C1 witness: two orphans and one true root. -/
def c1map : List Item :=
  [mkItem 5 "Bug" 7 false true, mkItem 6 "Task" 0 false true,
   mkItem 9 "Epic" 0 true false]

/-- Witness for `c1_other_parent` at a concrete input. -/
theorem c1_other_parent_witness :
    (∃ other, lookup (createOtherParent c1map) 0 = some other ∧
      other.type = "Other" ∧ other.root = true ∧ other.orphan = false ∧
      other.children = (c1map.filter orphanP).map (·.id)) ∧
    (∀ it ∈ c1map, it.orphan = true → it.id ≠ 0 →
      ({ it with parent_id := 0, orphan := false } : Item) ∈ createOtherParent c1map) ∧
    (∃ rs, (workItemTree (createOtherParent c1map)).2 = rs ++ [0]) :=
  (c1_other_parent c1map).2 (mkItem 5 "Bug" 7 false true) (by decide)
    (by decide) (by decide)

/-- Claim C4's second half: re-running `_create_other_parent` on its own
output changes nothing, since every absorbed orphan was reset. -/
theorem createOtherParent_idem (m : List Item) :
    createOtherParent (createOtherParent m) = createOtherParent m := by
  by_cases hor : ∃ w ∈ m, orphanP w = true
  · obtain ⟨w, hw, hwo⟩ := hor
    have hspec := createOtherParent_spec hw hwo
    exact createOtherParent_no_orphans hspec.2.2
  · have hall : ∀ it ∈ m, orphanP it = false := by
      intro it hit
      rw [Bool.eq_false_iff]
      intro h0
      exact hor ⟨it, hit, h0⟩
    rw [createOtherParent_no_orphans hall, createOtherParent_no_orphans hall]

/-! ### Evolution of the item map during the builder pass -/

/-- How one item evolves during the recursive pass: every field is
preserved except `children`, which only grows. -/
def ItemEv (a b : Item) : Prop :=
  b.id = a.id ∧ b.type = a.type ∧ b.icon = a.icon ∧ b.parent_id = a.parent_id ∧
  b.root = a.root ∧ b.orphan = a.orphan ∧ b.children_by_type = a.children_by_type ∧
  ∀ c ∈ a.children, c ∈ b.children

theorem itemEv_refl (a : Item) : ItemEv a a :=
  ⟨rfl, rfl, rfl, rfl, rfl, rfl, rfl, fun _ hc => hc⟩

theorem itemEv_trans {a b c : Item} (h1 : ItemEv a b) (h2 : ItemEv b c) : ItemEv a c :=
  ⟨h2.1.trans h1.1, h2.2.1.trans h1.2.1, h2.2.2.1.trans h1.2.2.1,
   h2.2.2.2.1.trans h1.2.2.2.1, h2.2.2.2.2.1.trans h1.2.2.2.2.1,
   h2.2.2.2.2.2.1.trans h1.2.2.2.2.2.1, h2.2.2.2.2.2.2.1.trans h1.2.2.2.2.2.2.1,
   fun x hx => h2.2.2.2.2.2.2.2 x (h1.2.2.2.2.2.2.2 x hx)⟩

theorem evAll_refl : ∀ m : List Item, List.Forall₂ ItemEv m m
  | [] => List.Forall₂.nil
  | a :: l => List.Forall₂.cons (itemEv_refl a) (evAll_refl l)

theorem evAll_trans : ∀ {m₁ m₂ m₃ : List Item},
    List.Forall₂ ItemEv m₁ m₂ → List.Forall₂ ItemEv m₂ m₃ → List.Forall₂ ItemEv m₁ m₃
  | [], [], [], _, _ => List.Forall₂.nil
  | _ :: _, _ :: _, _ :: _, List.Forall₂.cons h1 t1, List.Forall₂.cons h2 t2 =>
    List.Forall₂.cons (itemEv_trans h1 h2) (evAll_trans t1 t2)

theorem evAll_ids : ∀ {m m' : List Item}, List.Forall₂ ItemEv m m' → idsOf m' = idsOf m
  | [], [], _ => rfl
  | _ :: _, _ :: _, List.Forall₂.cons h t => by
    unfold idsOf
    rw [List.map_cons, List.map_cons, h.1]
    have := evAll_ids t
    unfold idsOf at this
    rw [this]

theorem evAll_lookup_some : ∀ {m m' : List Item}, List.Forall₂ ItemEv m m' →
    ∀ {i : Nat} {it : Item}, lookup m i = some it →
      ∃ it', lookup m' i = some it' ∧ ItemEv it it'
  | [], [], _, i, it, h => by cases h
  | a :: l, b :: l', List.Forall₂.cons hab t, i, it, h => by
    unfold lookup at h ⊢
    by_cases hid : (a.id == i) = true
    · rw [List.find?_cons_of_pos l hid] at h
      injection h with h
      subst h
      refine ⟨b, ?_, hab⟩
      rw [List.find?_cons_of_pos l' (by rw [hab.1]; exact hid)]
    · rw [List.find?_cons_of_neg l hid] at h
      obtain ⟨it', hit', hev⟩ := evAll_lookup_some t h
      refine ⟨it', ?_, hev⟩
      rw [List.find?_cons_of_neg l' (by rw [hab.1]; exact hid)]
      exact hit'

theorem evAll_lookup_back : ∀ {m m' : List Item}, List.Forall₂ ItemEv m m' →
    ∀ {i : Nat} {it' : Item}, lookup m' i = some it' →
      ∃ it, lookup m i = some it ∧ ItemEv it it'
  | [], [], _, i, it', h => by cases h
  | a :: l, b :: l', List.Forall₂.cons hab t, i, it', h => by
    unfold lookup at h ⊢
    by_cases hid : (a.id == i) = true
    · rw [List.find?_cons_of_pos l' (by rw [hab.1]; exact hid)] at h
      injection h with h
      subst h
      refine ⟨a, ?_, hab⟩
      rw [List.find?_cons_of_pos l hid]
    · rw [List.find?_cons_of_neg l' (by rw [hab.1]; exact hid)] at h
      obtain ⟨it, hit, hev⟩ := evAll_lookup_back t h
      refine ⟨it, ?_, hev⟩
      rw [List.find?_cons_of_neg l hid]
      exact hit

theorem evAll_childrenOf_mono {m m' : List Item} (hev : List.Forall₂ ItemEv m m')
    {p c : Nat} (h : c ∈ childrenOf m p) : c ∈ childrenOf m' p := by
  unfold childrenOf at h ⊢
  cases hl : lookup m p with
  | none => rw [hl] at h; cases h
  | some it =>
    rw [hl] at h
    obtain ⟨it', hit', hev'⟩ := evAll_lookup_some hev hl
    rw [hit']
    exact hev'.2.2.2.2.2.2.2 c h

theorem map_ev {m : List Item} {f : Item → Item}
    (hf : ∀ x ∈ m, ItemEv x (f x)) : List.Forall₂ ItemEv m (m.map f) := by
  induction m with
  | nil => exact List.Forall₂.nil
  | cons a l ih =>
    rw [List.map_cons]
    exact List.Forall₂.cons (hf a (List.mem_cons_self a l))
      (ih (fun x hx => hf x (List.mem_cons_of_mem a hx)))

theorem appendChild_ev (m : List Item) (p c : Nat) :
    List.Forall₂ ItemEv m (appendChild m p c) := by
  unfold appendChild
  refine map_ev ?_
  intro x _
  by_cases hx : (x.id == p) = true
  · rw [if_pos hx]
    by_cases hc : c ∈ x.children
    · rw [if_pos hc]
      exact itemEv_refl x
    · rw [if_neg hc]
      exact ⟨rfl, rfl, rfl, rfl, rfl, rfl, rfl,
        fun y hy => List.mem_append.mpr (Or.inl hy)⟩
  · rw [if_neg hx]
    exact itemEv_refl x

theorem appendChild_mem {m : List Item} {p : Nat} (c : Nat)
    (h : memMap m p = true) : c ∈ childrenOf (appendChild m p c) p := by
  obtain ⟨it, hit, hitid⟩ := lookup_of_memMap h
  have hpred : ∀ x : Item,
      (fun x => x.id == p) ((fun x =>
        if x.id == p then
          (if c ∈ x.children then x else { x with children := x.children ++ [c] })
        else x) x) = (fun x => x.id == p) x := by
    intro x
    dsimp only
    by_cases hx : (x.id == p) = true
    · rw [if_pos hx]
      by_cases hc : c ∈ x.children
      · rw [if_pos hc]
      · rw [if_neg hc]
    · rw [if_neg hx]
  unfold childrenOf appendChild lookup
  unfold lookup at hit
  rw [find?_map_pred_eq hpred m, hit]
  have hx : (it.id == p) = true := by simp [hitid]
  show c ∈ ((if it.id == p then
      (if c ∈ it.children then it else { it with children := it.children ++ [c] })
    else it).children)
  rw [if_pos hx]
  by_cases hc : c ∈ it.children
  · rw [if_pos hc]
    exact hc
  · rw [if_neg hc]
    simp

theorem hasParentB_iff {m : List Item} {it : Item} :
    hasParentB m it = true ↔ it.parent_id ≠ 0 ∧ it.parent_id ∈ idsOf m := by
  unfold hasParentB
  rw [Bool.and_eq_true]
  constructor
  · rintro ⟨h1, h2⟩
    exact ⟨by simpa using h1, idsOf_memMap h2⟩
  · rintro ⟨h1, h2⟩
    exact ⟨by simpa using h1, memMap_of_idsOf h2⟩

theorem lookup_mem_ids {m : List Item} {i : Nat} {it : Item}
    (h : lookup m i = some it) : i ∈ idsOf m :=
  idsOf_memMap (memMap_of_lookup h)

theorem lookup_mem {m : List Item} {i : Nat} {it : Item}
    (h : lookup m i = some it) : it ∈ m := by
  unfold lookup at h
  exact List.mem_of_find?_eq_some h

theorem lookup_id {m : List Item} {i : Nat} {it : Item}
    (h : lookup m i = some it) : it.id = i := by
  unfold lookup at h
  simpa using List.find?_some h

theorem addRoot_sub (rs : List Nat) (i : Nat) : rs ⊆ addRoot rs i := by
  unfold addRoot
  by_cases h : i ∈ rs
  · rw [if_pos h]
    exact fun x hx => hx
  · rw [if_neg h]
    exact fun x hx => List.mem_append.mpr (Or.inl hx)

theorem addRoot_mem (rs : List Nat) (i : Nat) : i ∈ addRoot rs i := by
  unfold addRoot
  by_cases h : i ∈ rs
  · rw [if_pos h]
    exact h
  · rw [if_neg h]
    simp

theorem addRoot_nodup {rs : List Nat} (i : Nat) (h : rs.Nodup) :
    (addRoot rs i).Nodup := by
  unfold addRoot
  by_cases hi : i ∈ rs
  · rw [if_pos hi]
    exact h
  · rw [if_neg hi]
    simp [List.nodup_append, h, hi]

theorem addRoot_elems {rs : List Nat} {i j : Nat} (h : j ∈ addRoot rs i) :
    j ∈ rs ∨ j = i := by
  unfold addRoot at h
  by_cases hi : i ∈ rs
  · rw [if_pos hi] at h
    exact Or.inl h
  · rw [if_neg hi] at h
    rcases List.mem_append.mp h with h0 | h0
    · exact Or.inl h0
    · simp only [List.mem_singleton] at h0
      exact Or.inr h0

/-! ### Invariants of the builder state -/

/-- Resolvable-parent condition, in propositional form. -/
def hasParentP (m : List Item) (it : Item) : Prop :=
  it.parent_id ≠ 0 ∧ it.parent_id ∈ idsOf m

instance (m : List Item) (it : Item) : Decidable (hasParentP m it) := by
  unfold hasParentP; infer_instance

/-- What one call of `process_item` on `j` guarantees: the item got linked
under its resolvable parent, or registered as a root when parentless and
not an orphan. -/
def PostProc (m : List Item) (roots : List Nat) (j : Nat) : Prop :=
  ∀ it, lookup m j = some it →
    (hasParentP m it → j ∈ childrenOf m it.parent_id) ∧
    (¬hasParentP m it → it.orphan = false → j ∈ roots)

def INVp (st : BuildSt) : Prop := ∀ j ∈ st.processed, PostProc st.all st.roots j

/-- Every id in `root_items` was added in the parentless non-orphan branch. -/
def RootOk (m : List Item) (j : Nat) : Prop :=
  ∃ it, lookup m j = some it ∧ ¬hasParentP m it ∧ it.orphan = false

def INVr (st : BuildSt) : Prop := ∀ j ∈ st.roots, RootOk st.all j

/-- Children references of the state's map resolve to keys of the map. -/
def WFst (st : BuildSt) : Prop :=
  ∀ it ∈ st.all, ∀ c ∈ it.children, c ∈ idsOf st.all

theorem hasParentP_ev {m m' : List Item} (hev : List.Forall₂ ItemEv m m')
    {it it' : Item} (hitev : ItemEv it it') :
    hasParentP m' it' ↔ hasParentP m it := by
  unfold hasParentP
  rw [hitev.2.2.2.1, evAll_ids hev]

theorem postProc_mono {m m' : List Item} (hev : List.Forall₂ ItemEv m m')
    {r r' : List Nat} (hroots : r ⊆ r') {j : Nat}
    (h : PostProc m r j) : PostProc m' r' j := by
  intro it' hit'
  obtain ⟨it, hit, hitev⟩ := evAll_lookup_back hev hit'
  obtain ⟨h1, h2⟩ := h it hit
  constructor
  · intro hp
    rw [hitev.2.2.2.1]
    exact evAll_childrenOf_mono hev (h1 ((hasParentP_ev hev hitev).mp hp))
  · intro hp ho
    refine hroots (h2 ?_ ?_)
    · intro hq
      exact hp ((hasParentP_ev hev hitev).mpr hq)
    · rw [← hitev.2.2.2.2.2.1]
      exact ho

theorem rootOk_mono {m m' : List Item} (hev : List.Forall₂ ItemEv m m')
    {j : Nat} (h : RootOk m j) : RootOk m' j := by
  obtain ⟨it, hit, hp, ho⟩ := h
  obtain ⟨it', hit', hitev⟩ := evAll_lookup_some hev hit
  refine ⟨it', hit', ?_, ?_⟩
  · intro hq
    exact hp ((hasParentP_ev hev hitev).mp hq)
  · rw [hitev.2.2.2.2.2.1]
    exact ho

/-- Everything a completed `process_item` call preserves or establishes
about the state. -/
def StepSpec (st st' : BuildSt) : Prop :=
  List.Forall₂ ItemEv st.all st'.all ∧
  st.processed ⊆ st'.processed ∧
  st.roots ⊆ st'.roots ∧
  (∀ j ∈ st'.processed, j ∈ st.processed ∨ j ∈ idsOf st.all) ∧
  (st.processed.Nodup → st'.processed.Nodup) ∧
  (INVp st → INVp st') ∧
  (INVr st → INVr st') ∧
  (WFst st → WFst st') ∧
  (st.roots.Nodup → st'.roots.Nodup)

theorem stepSpec_refl (st : BuildSt) : StepSpec st st :=
  ⟨evAll_refl st.all, fun _ h => h, fun _ h => h, fun _ h => Or.inl h,
   fun h => h, fun h => h, fun h => h, fun h => h, fun h => h⟩

theorem stepSpec_trans {s1 s2 s3 : BuildSt}
    (h12 : StepSpec s1 s2) (h23 : StepSpec s2 s3) : StepSpec s1 s3 := by
  obtain ⟨e12, p12, r12, a12, n12, i12, v12, w12, d12⟩ := h12
  obtain ⟨e23, p23, r23, a23, n23, i23, v23, w23, d23⟩ := h23
  refine ⟨evAll_trans e12 e23, fun x hx => p23 (p12 hx), fun x hx => r23 (r12 hx),
    ?_, fun h => n23 (n12 h), fun h => i23 (i12 h), fun h => v23 (v12 h),
    fun h => w23 (w12 h), fun h => d23 (d12 h)⟩
  intro j hj
  rcases a23 j hj with h0 | h0
  · exact a12 j h0
  · rw [evAll_ids e12] at h0
    exact Or.inr h0

theorem foldl_step_none (f : Nat) (cs : List Nat) :
    cs.foldl (fun acc c =>
      match acc with
      | none => none
      | some stc => processItem f c stc) none = none := by
  induction cs with
  | nil => rfl
  | cons c cs ih =>
    rw [List.foldl_cons]
    exact ih

theorem processChildren_cons (f : Nat) (c : Nat) (cs : List Nat) (st : BuildSt) :
    processChildren f (c :: cs) st =
      match processItem f c st with
      | none => none
      | some st2 => processChildren f cs st2 := by
  unfold processChildren
  rw [List.foldl_cons]
  dsimp only
  cases processItem f c st with
  | none => exact foldl_step_none f cs
  | some st2 => rfl

theorem processChildren_spec_of (f : Nat)
    (hPI : ∀ (i : Nat) (st st' : BuildSt), processItem f i st = some st' → StepSpec st st') :
    ∀ (cs : List Nat) (st st' : BuildSt), processChildren f cs st = some st' → StepSpec st st'
  | [], st, st', h => by
    have h' : some st = some st' := h
    injection h' with h'
    subst h'
    exact stepSpec_refl st
  | c :: cs, st, st', h => by
    rw [processChildren_cons] at h
    cases hc : processItem f c st with
    | none =>
      rw [hc] at h
      exact Option.noConfusion h
    | some st2 =>
      rw [hc] at h
      exact stepSpec_trans (hPI c st st2 hc)
        (processChildren_spec_of f hPI cs st2 st' h)

/-- The parent branch of `process_item`: mark `i` processed and append it
to its parent's children. -/
theorem stepSpec_parent {st : BuildSt} {i : Nat} {item : Item}
    (hp : i ∉ st.processed) (hlook : lookup st.all i = some item)
    (hpar : hasParentB st.all item = true) :
    StepSpec st { all := appendChild st.all item.parent_id i,
                  processed := i :: st.processed, roots := st.roots } := by
  have hev : List.Forall₂ ItemEv st.all (appendChild st.all item.parent_id i) :=
    appendChild_ev st.all item.parent_id i
  have hmempar : memMap st.all item.parent_id = true := by
    unfold hasParentB at hpar
    exact (Bool.and_eq_true_iff.mp hpar).2
  have hpp : hasParentP st.all item := hasParentB_iff.mp hpar
  refine ⟨hev, ?_, ?_, ?_, ?_, ?_, ?_, ?_, ?_⟩
  · exact fun x hx => List.mem_cons_of_mem i hx
  · exact fun x hx => hx
  · intro j hj
    rcases List.mem_cons.mp hj with h0 | h0
    · exact Or.inr (h0 ▸ lookup_mem_ids hlook)
    · exact Or.inl h0
  · intro hnd
    exact List.nodup_cons.mpr ⟨hp, hnd⟩
  · intro hin j hj
    rcases List.mem_cons.mp hj with h0 | h0
    · subst h0
      intro it' hit'
      obtain ⟨it2, hit2, hev2⟩ := evAll_lookup_some hev hlook
      rw [hit'] at hit2
      injection hit2 with hit2
      subst hit2
      constructor
      · intro _
        rw [hev2.2.2.2.1]
        exact appendChild_mem j hmempar
      · intro hnp _
        exact absurd ((hasParentP_ev hev hev2).mpr hpp) hnp
    · exact postProc_mono hev (fun x hx => hx) (hin j h0)
  · intro hin j hj
    exact rootOk_mono hev (hin j hj)
  · intro hw it' hit' c hc
    show c ∈ idsOf (appendChild st.all item.parent_id i)
    rw [appendChild_ids]
    replace hit' : it' ∈ appendChild st.all item.parent_id i := hit'
    unfold appendChild at hit'
    obtain ⟨x, hx, rfl⟩ := List.mem_map.mp hit'
    by_cases hxp : (x.id == item.parent_id) = true
    · rw [if_pos hxp] at hc
      by_cases hci : i ∈ x.children
      · rw [if_pos hci] at hc
        exact hw x hx c hc
      · rw [if_neg hci] at hc
        rcases List.mem_append.mp hc with h0 | h0
        · exact hw x hx c h0
        · simp only [List.mem_singleton] at h0
          exact h0 ▸ lookup_mem_ids hlook
    · rw [if_neg hxp] at hc
      exact hw x hx c hc
  · exact fun h => h

/-- The orphan branch of `process_item`: mark `i` processed and move on. -/
theorem stepSpec_orphan {st : BuildSt} {i : Nat} {item : Item}
    (hp : i ∉ st.processed) (hlook : lookup st.all i = some item)
    (hpar : ¬hasParentB st.all item = true) (ho : item.orphan = true) :
    StepSpec st { st with processed := i :: st.processed } := by
  refine ⟨evAll_refl st.all, fun x hx => List.mem_cons_of_mem i hx, fun x hx => hx,
    ?_, ?_, ?_, fun h => h, fun h => h, fun h => h⟩
  · intro j hj
    rcases List.mem_cons.mp hj with h0 | h0
    · exact Or.inr (h0 ▸ lookup_mem_ids hlook)
    · exact Or.inl h0
  · intro hnd
    exact List.nodup_cons.mpr ⟨hp, hnd⟩
  · intro hin j hj
    rcases List.mem_cons.mp hj with h0 | h0
    · subst h0
      intro it' hit'
      rw [hlook] at hit'
      injection hit' with hit'
      subst hit'
      constructor
      · intro hq
        exact absurd (hasParentB_iff.mpr hq) hpar
      · intro _ ho'
        rw [ho] at ho'
        cases ho'
    · exact hin j h0

/-- The root branch of `process_item`: mark `i` processed and register it
as a root. -/
theorem stepSpec_root {st : BuildSt} {i : Nat} {item : Item}
    (hp : i ∉ st.processed) (hlook : lookup st.all i = some item)
    (hpar : ¬hasParentB st.all item = true) (ho : item.orphan = false) :
    StepSpec st { st with processed := i :: st.processed,
                          roots := addRoot st.roots i } := by
  have hnp : ¬hasParentP st.all item := fun hq => hpar (hasParentB_iff.mpr hq)
  refine ⟨evAll_refl st.all, fun x hx => List.mem_cons_of_mem i hx,
    addRoot_sub st.roots i, ?_, ?_, ?_, ?_, fun h => h, fun h => addRoot_nodup i h⟩
  · intro j hj
    rcases List.mem_cons.mp hj with h0 | h0
    · exact Or.inr (h0 ▸ lookup_mem_ids hlook)
    · exact Or.inl h0
  · intro hnd
    exact List.nodup_cons.mpr ⟨hp, hnd⟩
  · intro hin j hj
    rcases List.mem_cons.mp hj with h0 | h0
    · subst h0
      intro it' hit'
      rw [hlook] at hit'
      injection hit' with hit'
      subst hit'
      constructor
      · intro hq
        exact absurd hq hnp
      · intro _ _
        exact addRoot_mem st.roots j
    · intro it' hit'
      obtain ⟨h1, h2⟩ := hin j h0 it' hit'
      exact ⟨h1, fun hq ho' => addRoot_sub st.roots i (h2 hq ho')⟩
  · intro hin j hj
    rcases addRoot_elems hj with h0 | h0
    · exact hin j h0
    · subst h0
      exact ⟨item, hlook, hnp, ho⟩

/-- The continuation of `process_item` after the parent/orphan/root step:
skip the children loop for id 0, otherwise process each current child. -/
theorem processItem_tail {f : Nat}
    (hPI : ∀ (k : Nat) (s s' : BuildSt), processItem f k s = some s' → StepSpec s s')
    {i : Nat} {st3 st' : BuildSt}
    (h : (if i == 0 then some st3
          else
            match lookup st3.all i with
            | none => some st3
            | some item2 =>
              item2.children.foldl (fun acc c =>
                match acc with
                | none => none
                | some stc => processItem f c stc) (some st3)) = some st') :
    StepSpec st3 st' := by
  by_cases hi0 : (i == 0) = true
  · rw [if_pos hi0] at h
    injection h with h
    subst h
    exact stepSpec_refl st3
  · rw [if_neg hi0] at h
    cases hlook2 : lookup st3.all i with
    | none =>
      rw [hlook2] at h
      injection h with h
      subst h
      exact stepSpec_refl st3
    | some item2 =>
      rw [hlook2] at h
      have h' : processChildren f item2.children st3 = some st' := h
      exact processChildren_spec_of f hPI item2.children st3 st' h'

/-- Master specification of `process_item`: a successful call evolves the
state per `StepSpec` and leaves the processed id in `processed_ids`. -/
theorem processItem_spec : ∀ (f i : Nat) (st st' : BuildSt),
    processItem f i st = some st' →
      StepSpec st st' ∧ (i ∈ idsOf st.all → i ∈ st'.processed) := by
  intro f
  induction f with
  | zero =>
    intro i st st' h
    unfold processItem at h
    by_cases hp : i ∈ st.processed
    · rw [if_pos hp] at h
      injection h with h
      subst h
      exact ⟨stepSpec_refl st, fun _ => hp⟩
    · rw [if_neg hp] at h
      exact Option.noConfusion h
  | succ f ih =>
    intro i st st' h
    have hPI : ∀ (k : Nat) (s s' : BuildSt), processItem f k s = some s' → StepSpec s s' :=
      fun k s s' hk => (ih k s s' hk).1
    unfold processItem at h
    by_cases hp : i ∈ st.processed
    · rw [if_pos hp] at h
      injection h with h
      subst h
      exact ⟨stepSpec_refl st, fun _ => hp⟩
    · rw [if_neg hp] at h
      cases hlook : lookup st.all i with
      | none =>
        rw [hlook] at h
        injection h with h
        subst h
        refine ⟨stepSpec_refl st, ?_⟩
        intro hids
        obtain ⟨it, hit, _⟩ := lookup_of_memMap (memMap_of_idsOf hids)
        rw [hlook] at hit
        exact Option.noConfusion hit
      | some item =>
        rw [hlook] at h
        dsimp only at h
        by_cases hpar : hasParentB st.all item = true
        · rw [if_pos hpar] at h
          cases hrec : processItem f item.parent_id
              { all := appendChild st.all item.parent_id i,
                processed := i :: st.processed, roots := st.roots } with
          | none =>
            rw [hrec] at h
            exact Option.noConfusion h
          | some st3 =>
            rw [hrec] at h
            have hstep1 : StepSpec st
                { all := appendChild st.all item.parent_id i,
                  processed := i :: st.processed, roots := st.roots } :=
              stepSpec_parent hp hlook hpar
            have hstep2 := hPI item.parent_id _ st3 hrec
            have hiproc : i ∈ st3.processed :=
              hstep2.2.1 (List.mem_cons_self i st.processed)
            have htail := processItem_tail hPI h
            exact ⟨stepSpec_trans (stepSpec_trans hstep1 hstep2) htail,
              fun _ => htail.2.1 hiproc⟩
        · rw [if_neg hpar] at h
          by_cases ho : item.orphan = true
          · rw [if_pos ho] at h
            dsimp only at h
            have hstep1 : StepSpec st { st with processed := i :: st.processed } :=
              stepSpec_orphan hp hlook hpar ho
            have htail := processItem_tail hPI h
            exact ⟨stepSpec_trans hstep1 htail,
              fun _ => htail.2.1 (List.mem_cons_self i st.processed)⟩
          · rw [if_neg ho] at h
            dsimp only at h
            have ho' : item.orphan = false := Bool.eq_false_iff.mpr ho
            have hstep1 : StepSpec st
                { st with processed := i :: st.processed,
                          roots := addRoot st.roots i } :=
              stepSpec_root hp hlook hpar ho'
            have htail := processItem_tail hPI h
            exact ⟨stepSpec_trans hstep1 htail,
              fun _ => htail.2.1 (List.mem_cons_self i st.processed)⟩

/-! ### Fuel sufficiency: the recursion terminates within `|map|` depth -/

/-- The number of map keys not yet processed: the measure that shrinks at
every non-trivial `process_item` call. -/
def remaining (m : List Item) (P : List Nat) : Nat :=
  ((idsOf m).dedup.filter (fun j => decide (j ∉ P))).length

theorem filter_length_le_of_imp {l : List Nat} {p q : Nat → Bool}
    (h : ∀ x ∈ l, q x = true → p x = true) :
    (l.filter q).length ≤ (l.filter p).length := by
  induction l with
  | nil => exact Nat.le_refl 0
  | cons a l ih =>
    have ih' := ih (fun x hx => h x (List.mem_cons_of_mem a hx))
    rw [List.filter_cons, List.filter_cons]
    by_cases hq : q a = true
    · rw [if_pos hq, if_pos (h a (List.mem_cons_self a l) hq)]
      exact Nat.succ_le_succ ih'
    · rw [if_neg hq]
      by_cases hp : p a = true
      · rw [if_pos hp]
        exact Nat.le_trans ih' (Nat.le_succ _)
      · rw [if_neg hp]
        exact ih'

theorem filter_notMem_cons_length {i : Nat} :
    ∀ {l : List Nat}, l.Nodup → i ∈ l → ∀ {P : List Nat}, i ∉ P →
      (l.filter (fun j => decide (j ∉ i :: P))).length + 1
        = (l.filter (fun j => decide (j ∉ P))).length := by
  intro l
  induction l with
  | nil => intro _ h; cases h
  | cons a l ih =>
    intro hnd hmem P hiP
    obtain ⟨hal, hndl⟩ := List.nodup_cons.mp hnd
    rw [List.filter_cons, List.filter_cons]
    by_cases hai : a = i
    · subst hai
      have h1 : (decide (a ∉ a :: P)) = false := by
        simp
      have h2 : (decide (a ∉ P)) = true := by
        simpa using hiP
      rw [h1, h2]
      have hcong : l.filter (fun j => decide (j ∉ a :: P))
          = l.filter (fun j => decide (j ∉ P)) := by
        refine List.filter_congr ?_
        intro x hx
        have hxa : x ≠ a := fun hq => hal (hq ▸ hx)
        simp [List.mem_cons, hxa]
      rw [hcong]
      rfl
    · have hmem' : i ∈ l := by
        rcases List.mem_cons.mp hmem with h0 | h0
        · exact absurd h0.symm hai
        · exact h0
      have hpq : (decide (a ∉ i :: P)) = (decide (a ∉ P)) := by
        simp [List.mem_cons, hai]
      rw [hpq]
      by_cases hap : (decide (a ∉ P)) = true
      · rw [if_pos hap, if_pos hap]
        have hih := ih hndl hmem' hiP
        simp only [List.length_cons]
        omega
      · rw [if_neg hap, if_neg hap]
        exact ih hndl hmem' hiP

theorem remaining_mono {st st' : BuildSt} (h : StepSpec st st') :
    remaining st'.all st'.processed ≤ remaining st.all st.processed := by
  unfold remaining
  rw [evAll_ids h.1]
  refine filter_length_le_of_imp ?_
  intro x _ hq
  have hx : x ∉ st'.processed := by simpa using hq
  have : x ∉ st.processed := fun hmem => hx (h.2.1 hmem)
  simpa using this

theorem remaining_cons {m m' : List Item} {P : List Nat} {i : Nat}
    (hids : idsOf m' = idsOf m) (him : i ∈ idsOf m) (hiP : i ∉ P) :
    remaining m' (i :: P) + 1 = remaining m P := by
  unfold remaining
  rw [hids]
  exact filter_notMem_cons_length (List.nodup_dedup _) (List.mem_dedup.mpr him) hiP

theorem remaining_le_length (m : List Item) : remaining m [] ≤ m.length := by
  unfold remaining
  calc ((idsOf m).dedup.filter (fun j => decide (j ∉ ([] : List Nat)))).length
      ≤ (idsOf m).dedup.length := List.length_filter_le _ _
    _ ≤ (idsOf m).length := (List.dedup_sublist (idsOf m)).length_le
    _ = m.length := List.length_map m (·.id)

theorem processChildren_total {f : Nat}
    (ihT : ∀ (k : Nat) (s : BuildSt), WFst s → (k ∈ s.processed ∨ k ∈ idsOf s.all) →
      remaining s.all s.processed ≤ f → (processItem f k s).isSome = true) :
    ∀ (cs : List Nat) (st : BuildSt), WFst st → (∀ c ∈ cs, c ∈ idsOf st.all) →
      remaining st.all st.processed ≤ f →
      (processChildren f cs st).isSome = true
  | [], st, _, _, _ => rfl
  | c :: cs, st, hwf, hcs, hrem => by
    rw [processChildren_cons]
    have hc := ihT c st hwf (Or.inr (hcs c (List.mem_cons_self c cs))) hrem
    cases hpi : processItem f c st with
    | none =>
      rw [hpi] at hc
      cases hc
    | some st2 =>
      have hspec := (processItem_spec f c st st2 hpi).1
      have hwf2 : WFst st2 := hspec.2.2.2.2.2.2.2.1 hwf
      have hcs2 : ∀ x ∈ cs, x ∈ idsOf st2.all := by
        intro x hx
        rw [evAll_ids hspec.1]
        exact hcs x (List.mem_cons_of_mem c hx)
      have hrem2 : remaining st2.all st2.processed ≤ f :=
        Nat.le_trans (remaining_mono hspec) hrem
      exact processChildren_total ihT cs st2 hwf2 hcs2 hrem2

theorem processItem_total_tail {f : Nat}
    (ihT : ∀ (k : Nat) (s : BuildSt), WFst s → (k ∈ s.processed ∨ k ∈ idsOf s.all) →
      remaining s.all s.processed ≤ f → (processItem f k s).isSome = true)
    {i : Nat} {st3 : BuildSt} (hwf3 : WFst st3)
    (hrem3 : remaining st3.all st3.processed ≤ f) :
    (if i == 0 then some st3
     else
       match lookup st3.all i with
       | none => some st3
       | some item2 =>
         item2.children.foldl (fun acc c =>
           match acc with
           | none => none
           | some stc => processItem f c stc) (some st3)).isSome = true := by
  by_cases hi0 : (i == 0) = true
  · rw [if_pos hi0]
    rfl
  · rw [if_neg hi0]
    cases hlook2 : lookup st3.all i with
    | none => rfl
    | some item2 =>
      have hcs : ∀ c ∈ item2.children, c ∈ idsOf st3.all :=
        hwf3 item2 (lookup_mem hlook2)
      exact processChildren_total ihT item2.children st3 hwf3 hcs hrem3

/-- Fuel sufficiency: any fuel at least the number of unprocessed map keys
makes `process_item` succeed — even when `parent_id` references form a
cycle, the `processed_ids` guard bounds the recursion. -/
theorem processItem_total : ∀ (f : Nat), ∀ (i : Nat) (st : BuildSt),
    WFst st → (i ∈ st.processed ∨ i ∈ idsOf st.all) →
    remaining st.all st.processed ≤ f → (processItem f i st).isSome = true := by
  intro f
  induction f with
  | zero =>
    intro i st hwf hmem hrem
    unfold processItem
    by_cases hp : i ∈ st.processed
    · rw [if_pos hp]
      rfl
    · rw [if_neg hp]
      exfalso
      rcases hmem with h0 | h0
      · exact hp h0
      · have := @remaining_cons st.all st.all st.processed i rfl h0 hp
        omega
  | succ f ih =>
    intro i st hwf hmem hrem
    unfold processItem
    by_cases hp : i ∈ st.processed
    · rw [if_pos hp]
      rfl
    · rw [if_neg hp]
      have him : i ∈ idsOf st.all := by
        rcases hmem with h0 | h0
        · exact absurd h0 hp
        · exact h0
      cases hlook : lookup st.all i with
      | none => rfl
      | some item =>
        dsimp only
        by_cases hpar : hasParentB st.all item = true
        · rw [if_pos hpar]
          have hspec1 := stepSpec_parent hp hlook hpar
          have hwfp := hspec1.2.2.2.2.2.2.2.1 hwf
          have hremp := remaining_cons (appendChild_ids st.all item.parent_id i) him hp
          have hpmem : item.parent_id ∈ idsOf (appendChild st.all item.parent_id i) := by
            rw [appendChild_ids]
            exact idsOf_memMap (by
              unfold hasParentB at hpar
              exact (Bool.and_eq_true_iff.mp hpar).2)
          have hrec := ih item.parent_id _ hwfp (Or.inr hpmem) (by
            show remaining (appendChild st.all item.parent_id i) (i :: st.processed) ≤ f
            omega)
          obtain ⟨st3, hpi⟩ := Option.isSome_iff_exists.mp hrec
          rw [hpi]
          have hspec2 := (processItem_spec f item.parent_id _ st3 hpi).1
          have hwf3 := hspec2.2.2.2.2.2.2.2.1 hwfp
          have hrem3 : remaining st3.all st3.processed ≤ f :=
            Nat.le_trans (remaining_mono hspec2) (by
              show remaining (appendChild st.all item.parent_id i) (i :: st.processed) ≤ f
              omega)
          exact processItem_total_tail ih hwf3 hrem3
        · rw [if_neg hpar]
          have hrem1 := @remaining_cons st.all st.all st.processed i rfl him hp
          by_cases ho : item.orphan = true
          · rw [if_pos ho]
            dsimp only
            refine processItem_total_tail ih hwf ?_
            show remaining st.all (i :: st.processed) ≤ f
            omega
          · rw [if_neg ho]
            dsimp only
            refine processItem_total_tail ih hwf ?_
            show remaining st.all (i :: st.processed) ≤ f
            omega

theorem processTop_spec : ∀ (f : Nat) (ids : List Nat) (st st' : BuildSt),
    processTop f ids st = some st' →
      StepSpec st st' ∧ ∀ i ∈ ids, i ∈ idsOf st.all → i ∈ st'.processed
  | _, [], st, st', h => by
    have h' : some st = some st' := h
    injection h' with h'
    subst h'
    exact ⟨stepSpec_refl st, fun i hi _ => absurd hi (List.not_mem_nil i)⟩
  | f, i :: is, st, st', h => by
    unfold processTop at h
    cases hpi : processItem f i st with
    | none =>
      rw [hpi] at h
      exact Option.noConfusion h
    | some stm =>
      rw [hpi] at h
      obtain ⟨hspec1, hip⟩ := processItem_spec f i st stm hpi
      obtain ⟨hspec2, hall⟩ := processTop_spec f is stm st' h
      refine ⟨stepSpec_trans hspec1 hspec2, ?_⟩
      intro j hj hjid
      rcases List.mem_cons.mp hj with h0 | h0
      · subst h0
        exact hspec2.2.1 (hip hjid)
      · refine hall j h0 ?_
        rw [evAll_ids hspec1.1]
        exact hjid

theorem processTop_total : ∀ (f : Nat) (ids : List Nat) (st : BuildSt),
    WFst st → (∀ i ∈ ids, i ∈ idsOf st.all) → remaining st.all st.processed ≤ f →
    (processTop f ids st).isSome = true
  | _, [], _, _, _, _ => rfl
  | f, i :: is, st, hwf, hids, hrem => by
    unfold processTop
    have hi := processItem_total f i st hwf
      (Or.inr (hids i (List.mem_cons_self i is))) hrem
    cases hpi : processItem f i st with
    | none =>
      rw [hpi] at hi
      cases hi
    | some stm =>
      have hspec := (processItem_spec f i st stm hpi).1
      refine processTop_total f is stm (hspec.2.2.2.2.2.2.2.1 hwf) ?_
        (Nat.le_trans (remaining_mono hspec) hrem)
      intro j hj
      rw [evAll_ids hspec.1]
      exact hids j (List.mem_cons_of_mem i hj)

/-- For a well-formed map the full first pass succeeds: the fuel bound
`m.length` is sufficient, parent cycles included. -/
theorem processAll_some {m : List Item} (hwfc : ∀ it ∈ m, ∀ c ∈ it.children, c ∈ idsOf m) :
    ∃ st, processAll m = some st := by
  have hwf : WFst { all := m, processed := [], roots := [] } := hwfc
  have htot := processTop_total m.length (idsOf m)
    { all := m, processed := [], roots := [] } hwf
    (fun i hi => hi) (remaining_le_length m)
  exact Option.isSome_iff_exists.mp htot

theorem processAll_spec {m : List Item} {st : BuildSt} (h : processAll m = some st) :
    StepSpec { all := m, processed := [], roots := [] } st ∧
    ∀ i ∈ idsOf m, i ∈ st.processed := by
  obtain ⟨hspec, hall⟩ := processTop_spec m.length (idsOf m)
    { all := m, processed := [], roots := [] } st h
  exact ⟨hspec, fun i hi => hall i hi hi⟩

/-- `lookup` retrieves an element of a map with distinct ids. -/
theorem lookup_self {m : List Item} (hnd : (idsOf m).Nodup) {it : Item}
    (hit : it ∈ m) : lookup m it.id = some it := by
  induction m with
  | nil => cases hit
  | cons a l ih =>
    unfold lookup
    rcases List.mem_cons.mp hit with h0 | h0
    · subst h0
      rw [List.find?_cons_of_pos l (by simp)]
    · have hal : a.id ≠ it.id := by
        intro hq
        have hnd' := List.nodup_cons.mp hnd
        refine hnd'.1 ?_
        show a.id ∈ List.map (fun x => x.id) l
        rw [hq]
        exact List.mem_map.mpr ⟨it, h0, rfl⟩
      rw [List.find?_cons_of_neg l (by simpa using hal)]
      exact ih (List.nodup_cons.mp hnd).2 h0

/-! ### A second pass is a no-op on the map -/

/-- Every map item with a resolvable parent is already linked into its
parent's `children` — the map state a completed first pass leaves behind. -/
def LinkedAll (m : List Item) : Prop :=
  ∀ it ∈ m, hasParentP m it → it.id ∈ childrenOf m it.parent_id

theorem mem_unique_of_nodup_ids : ∀ {m : List Item}, (idsOf m).Nodup →
    ∀ {x y : Item}, x ∈ m → y ∈ m → x.id = y.id → x = y := by
  intro m
  induction m with
  | nil => intro _ x y hx; cases hx
  | cons a l ih =>
    intro hnd x y hx hy hxy
    have hnd' : ((fun x => x.id) a ∉ List.map (fun x => x.id) l)
        ∧ (List.map (fun x => x.id) l).Nodup := List.nodup_cons.mp hnd
    rcases List.mem_cons.mp hx with hx0 | hx0 <;> rcases List.mem_cons.mp hy with hy0 | hy0
    · rw [hx0, hy0]
    · exfalso
      refine hnd'.1 ?_
      subst hx0
      show x.id ∈ List.map (fun x => x.id) l
      rw [hxy]
      exact List.mem_map.mpr ⟨y, hy0, rfl⟩
    · exfalso
      refine hnd'.1 ?_
      subst hy0
      show y.id ∈ List.map (fun x => x.id) l
      rw [← hxy]
      exact List.mem_map.mpr ⟨x, hx0, rfl⟩
    · exact ih hnd'.2 hx0 hy0 hxy

theorem map_eq_self_of {l : List Item} {f : Item → Item}
    (h : ∀ x ∈ l, f x = x) : l.map f = l := by
  induction l with
  | nil => rfl
  | cons a l ih =>
    rw [List.map_cons, h a (List.mem_cons_self a l),
      ih (fun x hx => h x (List.mem_cons_of_mem a hx))]

/-- If the child is already linked, `appendChild` changes nothing. -/
theorem appendChild_noop {m : List Item} {p c : Nat}
    (hnd : (idsOf m).Nodup) (hc : c ∈ childrenOf m p) :
    appendChild m p c = m := by
  unfold childrenOf at hc
  cases hl : lookup m p with
  | none =>
    rw [hl] at hc
    cases hc
  | some it0 =>
    rw [hl] at hc
    unfold appendChild
    refine map_eq_self_of ?_
    intro x hx
    by_cases hxp : (x.id == p) = true
    · rw [if_pos hxp]
      have hxit : x = it0 :=
        mem_unique_of_nodup_ids hnd hx (lookup_mem hl)
          (by rw [lookup_id hl]; simpa using hxp)
      rw [if_pos (by rw [hxit]; exact hc)]
    · rw [if_neg hxp]

theorem processChildren_noop {f : Nat}
    (ihN : ∀ (k : Nat) (s s' : BuildSt), (idsOf s.all).Nodup → LinkedAll s.all →
      processItem f k s = some s' → s'.all = s.all) :
    ∀ (cs : List Nat) (st st' : BuildSt), (idsOf st.all).Nodup → LinkedAll st.all →
      processChildren f cs st = some st' → st'.all = st.all
  | [], st, st', _, _, h => by
    have h' : some st = some st' := h
    injection h' with h'
    rw [← h']
  | c :: cs, st, st', hnd, hla, h => by
    rw [processChildren_cons] at h
    cases hpi : processItem f c st with
    | none =>
      rw [hpi] at h
      exact Option.noConfusion h
    | some st2 =>
      rw [hpi] at h
      have h2 : st2.all = st.all := ihN c st st2 hnd hla hpi
      have h3 : st'.all = st2.all :=
        processChildren_noop ihN cs st2 st' (h2 ▸ hnd) (h2 ▸ hla) h
      rw [h3, h2]

theorem processItem_noop_tail {f : Nat}
    (ihN : ∀ (k : Nat) (s s' : BuildSt), (idsOf s.all).Nodup → LinkedAll s.all →
      processItem f k s = some s' → s'.all = s.all)
    {i : Nat} {st3 st' : BuildSt} (hnd3 : (idsOf st3.all).Nodup)
    (hla3 : LinkedAll st3.all)
    (h : (if i == 0 then some st3
          else
            match lookup st3.all i with
            | none => some st3
            | some item2 =>
              item2.children.foldl (fun acc c =>
                match acc with
                | none => none
                | some stc => processItem f c stc) (some st3)) = some st') :
    st'.all = st3.all := by
  by_cases hi0 : (i == 0) = true
  · rw [if_pos hi0] at h
    injection h with h
    rw [← h]
  · rw [if_neg hi0] at h
    cases hlook2 : lookup st3.all i with
    | none =>
      rw [hlook2] at h
      injection h with h
      rw [← h]
    | some item2 =>
      rw [hlook2] at h
      have h' : processChildren f item2.children st3 = some st' := h
      exact processChildren_noop ihN item2.children st3 st' hnd3 hla3 h'

/-- On a map where every resolvable parent link is already present (and
ids are unique), `process_item` leaves the map unchanged: appends are all
skipped by the membership check. -/
theorem processItem_noop : ∀ (f i : Nat) (st st' : BuildSt),
    (idsOf st.all).Nodup → LinkedAll st.all →
    processItem f i st = some st' → st'.all = st.all := by
  intro f
  induction f with
  | zero =>
    intro i st st' _ _ h
    unfold processItem at h
    by_cases hp : i ∈ st.processed
    · rw [if_pos hp] at h
      injection h with h
      rw [← h]
    · rw [if_neg hp] at h
      exact Option.noConfusion h
  | succ f ih =>
    intro i st st' hnd hla h
    unfold processItem at h
    by_cases hp : i ∈ st.processed
    · rw [if_pos hp] at h
      injection h with h
      rw [← h]
    · rw [if_neg hp] at h
      cases hlook : lookup st.all i with
      | none =>
        rw [hlook] at h
        injection h with h
        rw [← h]
      | some item =>
        rw [hlook] at h
        dsimp only at h
        by_cases hpar : hasParentB st.all item = true
        · rw [if_pos hpar] at h
          have hlinked : i ∈ childrenOf st.all item.parent_id := by
            have := hla item (lookup_mem hlook) (hasParentB_iff.mp hpar)
            rw [lookup_id hlook] at this
            exact this
          have hnoop : appendChild st.all item.parent_id i = st.all :=
            appendChild_noop hnd hlinked
          rw [hnoop] at h
          cases hrec : processItem f item.parent_id
              { all := st.all, processed := i :: st.processed, roots := st.roots } with
          | none =>
            rw [hrec] at h
            exact Option.noConfusion h
          | some st3 =>
            rw [hrec] at h
            have h3 : st3.all = st.all :=
              ih item.parent_id
                { all := st.all, processed := i :: st.processed, roots := st.roots }
                st3 hnd hla hrec
            have htail := processItem_noop_tail ih
              (by rw [h3]; exact hnd) (by rw [h3]; exact hla) h
            rw [htail, h3]
        · rw [if_neg hpar] at h
          by_cases ho : item.orphan = true
          · rw [if_pos ho] at h
            dsimp only at h
            exact @processItem_noop_tail f ih i
              { all := st.all, processed := i :: st.processed, roots := st.roots }
              st' hnd hla h
          · rw [if_neg ho] at h
            dsimp only at h
            exact @processItem_noop_tail f ih i
              { all := st.all, processed := i :: st.processed,
                roots := addRoot st.roots i }
              st' hnd hla h

theorem processTop_noop : ∀ (f : Nat) (ids : List Nat) (st st' : BuildSt),
    (idsOf st.all).Nodup → LinkedAll st.all →
    processTop f ids st = some st' → st'.all = st.all
  | _, [], st, st', _, _, h => by
    have h' : some st = some st' := h
    injection h' with h'
    rw [← h']
  | f, i :: is, st, st', hnd, hla, h => by
    unfold processTop at h
    cases hpi : processItem f i st with
    | none =>
      rw [hpi] at h
      exact Option.noConfusion h
    | some stm =>
      rw [hpi] at h
      have h2 : stm.all = st.all := processItem_noop f i st stm hnd hla hpi
      have h3 : st'.all = stm.all :=
        processTop_noop f is stm st' (h2 ▸ hnd) (h2 ▸ hla) h
      rw [h3, h2]

theorem processAll_noop {m : List Item} {st : BuildSt}
    (hnd : (idsOf m).Nodup) (hla : LinkedAll m)
    (h : processAll m = some st) : st.all = m :=
  processTop_noop m.length (idsOf m) { all := m, processed := [], roots := [] } st hnd hla h

/-- After a completed first pass, every resolvable parent link is present. -/
theorem processAll_linked {m : List Item} {st : BuildSt}
    (hnd : (idsOf m).Nodup) (h : processAll m = some st) : LinkedAll st.all := by
  obtain ⟨hspec, hall⟩ := processAll_spec h
  have hinvp : INVp st :=
    hspec.2.2.2.2.2.1 (fun j hj => absurd hj (List.not_mem_nil j))
  intro it hit hp
  have hndst : (idsOf st.all).Nodup := by
    rw [show idsOf st.all = idsOf m from evAll_ids hspec.1]
    exact hnd
  have hid : it.id ∈ idsOf m := by
    rw [← (show idsOf st.all = idsOf m from evAll_ids hspec.1)]
    exact List.mem_map.mpr ⟨it, hit, rfl⟩
  have hlook : lookup st.all it.id = some it := lookup_self hndst hit
  exact (hinvp it.id (hall it.id hid) it hlook).1 hp

/-! ### `children_by_type` assignment for root items -/

/-- Items related by `coreEq` agree on everything except
`children_by_type` — the only field `applyCBT` writes. -/
def coreEq (a b : Item) : Prop :=
  b.id = a.id ∧ b.type = a.type ∧ b.icon = a.icon ∧ b.parent_id = a.parent_id ∧
  b.root = a.root ∧ b.orphan = a.orphan ∧ b.children = a.children

theorem coreEq_refl (a : Item) : coreEq a a := ⟨rfl, rfl, rfl, rfl, rfl, rfl, rfl⟩

theorem coreEq_trans {a b c : Item} (h1 : coreEq a b) (h2 : coreEq b c) : coreEq a c :=
  ⟨h2.1.trans h1.1, h2.2.1.trans h1.2.1, h2.2.2.1.trans h1.2.2.1,
   h2.2.2.2.1.trans h1.2.2.2.1, h2.2.2.2.2.1.trans h1.2.2.2.2.1,
   h2.2.2.2.2.2.1.trans h1.2.2.2.2.2.1, h2.2.2.2.2.2.2.trans h1.2.2.2.2.2.2⟩

theorem coreAll_refl : ∀ m : List Item, List.Forall₂ coreEq m m
  | [] => List.Forall₂.nil
  | a :: l => List.Forall₂.cons (coreEq_refl a) (coreAll_refl l)

theorem coreAll_trans : ∀ {m₁ m₂ m₃ : List Item},
    List.Forall₂ coreEq m₁ m₂ → List.Forall₂ coreEq m₂ m₃ → List.Forall₂ coreEq m₁ m₃
  | [], [], [], _, _ => List.Forall₂.nil
  | _ :: _, _ :: _, _ :: _, List.Forall₂.cons h1 t1, List.Forall₂.cons h2 t2 =>
    List.Forall₂.cons (coreEq_trans h1 h2) (coreAll_trans t1 t2)

theorem coreAll_ids : ∀ {m m' : List Item}, List.Forall₂ coreEq m m' → idsOf m' = idsOf m
  | [], [], _ => rfl
  | _ :: _, _ :: _, List.Forall₂.cons h t => by
    unfold idsOf
    rw [List.map_cons, List.map_cons, h.1]
    have := coreAll_ids t
    unfold idsOf at this
    rw [this]

theorem coreAll_lookup : ∀ {m m' : List Item}, List.Forall₂ coreEq m m' →
    ∀ (i : Nat), (lookup m i = none → lookup m' i = none) ∧
      (∀ it, lookup m i = some it → ∃ it', lookup m' i = some it' ∧ coreEq it it')
  | [], [], _, i => ⟨fun _ => rfl, fun it h => by cases h⟩
  | a :: l, b :: l', List.Forall₂.cons hab t, i => by
    constructor
    · intro h
      unfold lookup at h ⊢
      by_cases hid : (a.id == i) = true
      · rw [List.find?_cons_of_pos l hid] at h
        cases h
      · rw [List.find?_cons_of_neg l hid] at h
        rw [List.find?_cons_of_neg l' (by rw [hab.1]; exact hid)]
        exact (coreAll_lookup t i).1 h
    · intro it h
      unfold lookup at h ⊢
      by_cases hid : (a.id == i) = true
      · rw [List.find?_cons_of_pos l hid] at h
        injection h with h
        subst h
        exact ⟨b, by rw [List.find?_cons_of_pos l' (by rw [hab.1]; exact hid)], hab⟩
      · rw [List.find?_cons_of_neg l hid] at h
        obtain ⟨it', hit', hev⟩ := (coreAll_lookup t i).2 it h
        exact ⟨it', by
          rw [List.find?_cons_of_neg l' (by rw [hab.1]; exact hid)]
          exact hit', hev⟩

theorem coreAll_resolve : ∀ (ids : List Nat) {m m' : List Item},
    List.Forall₂ coreEq m m' → List.Forall₂ coreEq (resolve m ids) (resolve m' ids)
  | [], _, _, _ => List.Forall₂.nil
  | i :: ids, m, m', h => by
    unfold resolve
    rw [List.filterMap_cons, List.filterMap_cons]
    cases hl : lookup m i with
    | none =>
      rw [(coreAll_lookup h i).1 hl]
      exact coreAll_resolve ids h
    | some it =>
      obtain ⟨it', hit', hev⟩ := (coreAll_lookup h i).2 it hl
      rw [hit']
      exact List.Forall₂.cons hev (coreAll_resolve ids h)

theorem addToGroups_congr {it it' : Item} (h : coreEq it it')
    (gs : List WorkItemGroup) : addToGroups gs it = addToGroups gs it' := by
  unfold addToGroups
  rw [h.1, h.2.1, h.2.2.1]

theorem groupItems_congr_aux {its its' : List Item}
    (h : List.Forall₂ coreEq its its') :
    ∀ gs : List WorkItemGroup, its.foldl addToGroups gs = its'.foldl addToGroups gs := by
  induction h with
  | nil => intro _; rfl
  | cons hab ht ih =>
    intro gs
    rw [List.foldl_cons, List.foldl_cons, addToGroups_congr hab]
    exact ih _

theorem groupItems_congr {its its' : List Item}
    (h : List.Forall₂ coreEq its its') : groupItems its = groupItems its' :=
  groupItems_congr_aux h []

/-- `_group_children_by_type` only reads id, type and icon, so it is
stable across `children_by_type` assignments. -/
theorem groupChildrenByType_congr {m m' : List Item}
    (h : List.Forall₂ coreEq m m') (ids : List Nat) :
    groupChildrenByType m ids = groupChildrenByType m' ids :=
  groupItems_congr (coreAll_resolve ids h)

theorem forall₂_refl_of {α : Type} {R : α → α → Prop} (h : ∀ a, R a a) :
    ∀ l : List α, List.Forall₂ R l l
  | [] => List.Forall₂.nil
  | a :: l => List.Forall₂.cons (h a) (forall₂_refl_of h l)

theorem forall₂_trans_of {α : Type} {R : α → α → Prop}
    (h : ∀ a b c : α, R a b → R b c → R a c) :
    ∀ {l₁ l₂ l₃ : List α}, List.Forall₂ R l₁ l₂ → List.Forall₂ R l₂ l₃ →
      List.Forall₂ R l₁ l₃
  | [], [], [], _, _ => List.Forall₂.nil
  | _ :: _, _ :: _, _ :: _, List.Forall₂.cons h1 t1, List.Forall₂.cons h2 t2 =>
    List.Forall₂.cons (h _ _ _ h1 h2) (forall₂_trans_of h t1 t2)

theorem forall₂_mem_right {α β : Type} {R : α → β → Prop} :
    ∀ {l : List α} {l' : List β}, List.Forall₂ R l l' → ∀ b ∈ l', ∃ a ∈ l, R a b
  | [], [], _, b, hb => absurd hb (List.not_mem_nil b)
  | _ :: _, _ :: _, List.Forall₂.cons h1 t1, b, hb => by
    rcases List.mem_cons.mp hb with h0 | h0
    · subst h0
      exact ⟨_, List.mem_cons_self _ _, h1⟩
    · obtain ⟨a, ha, hR⟩ := forall₂_mem_right t1 b h0
      exact ⟨a, List.mem_cons_of_mem _ ha, hR⟩

theorem forall₂_map_apply {α : Type} {R : α → α → Prop} {f : α → α} {l : List α}
    (h : ∀ a ∈ l, R a (f a)) : List.Forall₂ R l (l.map f) := by
  induction l with
  | nil => exact List.Forall₂.nil
  | cons a l ih =>
    rw [List.map_cons]
    exact List.Forall₂.cons (h a (List.mem_cons_self a l))
      (ih (fun x hx => h x (List.mem_cons_of_mem a hx)))

theorem setCBT_coreAll (acc : List Item) (r : Nat) :
    List.Forall₂ coreEq acc (setCBT acc r) := by
  unfold setCBT
  refine forall₂_map_apply ?_
  intro x _
  by_cases hx : (x.id == r) = true
  · rw [if_pos hx]
    exact ⟨rfl, rfl, rfl, rfl, rfl, rfl, rfl⟩
  · rw [if_neg hx]
    exact coreEq_refl x

theorem applyCBT_coreAll : ∀ (rs : List Nat) (acc : List Item),
    List.Forall₂ coreEq acc (applyCBT rs acc)
  | [], acc => coreAll_refl acc
  | r :: rs, acc => by
    show List.Forall₂ coreEq acc (applyCBT rs (if r == 0 then acc else setCBT acc r))
    by_cases h0 : (r == 0) = true
    · rw [if_pos h0]
      exact applyCBT_coreAll rs acc
    · rw [if_neg h0]
      exact coreAll_trans (setCBT_coreAll acc r)
        (applyCBT_coreAll rs (setCBT acc r))

theorem lookup_setCBT_ne {acc : List Item} {r' r : Nat} (h : r ≠ r') :
    lookup (setCBT acc r') r = lookup acc r := by
  have hpred : ∀ x : Item, (fun x => x.id == r)
      ((fun x => if x.id == r' then
        { x with children_by_type := groupChildrenByType acc x.children }
      else x) x) = (fun x => x.id == r) x := by
    intro x
    dsimp only
    by_cases hx : (x.id == r') = true
    · rw [if_pos hx]
    · rw [if_neg hx]
  unfold setCBT lookup
  rw [find?_map_pred_eq hpred acc]
  cases hl : acc.find? (fun x => x.id == r) with
  | none => rfl
  | some it =>
    have hid : it.id = r := by simpa using List.find?_some hl
    show some (if it.id == r' then
      { it with children_by_type := groupChildrenByType acc it.children }
    else it) = some it
    rw [if_neg (by simp [hid, h])]

theorem lookup_setCBT_self {acc : List Item} {r : Nat} {it : Item}
    (hl : lookup acc r = some it) :
    lookup (setCBT acc r) r
      = some { it with children_by_type := groupChildrenByType acc it.children } := by
  have hpred : ∀ x : Item, (fun x => x.id == r)
      ((fun x => if x.id == r then
        { x with children_by_type := groupChildrenByType acc x.children }
      else x) x) = (fun x => x.id == r) x := by
    intro x
    dsimp only
    by_cases hx : (x.id == r) = true
    · rw [if_pos hx]
    · rw [if_neg hx]
  have hid : it.id = r := lookup_id hl
  unfold setCBT lookup
  unfold lookup at hl
  rw [find?_map_pred_eq hpred acc, hl]
  show some (if it.id == r then
    { it with children_by_type := groupChildrenByType acc it.children }
  else it) = _
  rw [if_pos (by simp [hid])]

theorem applyCBT_lookup_ne : ∀ (rs : List Nat) (acc : List Item) {r : Nat}, r ∉ rs →
    lookup (applyCBT rs acc) r = lookup acc r
  | [], _, _, _ => rfl
  | r' :: rs, acc, r, h => by
    have hr' : r ≠ r' := fun hq => h (hq ▸ List.mem_cons_self r' rs)
    have hrs : r ∉ rs := fun hq => h (List.mem_cons_of_mem r' hq)
    show lookup (applyCBT rs (if r' == 0 then acc else setCBT acc r')) r = lookup acc r
    by_cases h0 : (r' == 0) = true
    · rw [if_pos h0]
      exact applyCBT_lookup_ne rs acc hrs
    · rw [if_neg h0]
      rw [applyCBT_lookup_ne rs (setCBT acc r') hrs]
      exact lookup_setCBT_ne hr'

/-- After the `children_by_type` loop, every processed non-zero root's
`children_by_type` is the grouping of its children against the final map. -/
theorem applyCBT_sets : ∀ (rs : List Nat) (acc : List Item), ∀ r ∈ rs, r ≠ 0 →
    ∀ it', lookup (applyCBT rs acc) r = some it' →
      it'.children_by_type = groupChildrenByType (applyCBT rs acc) it'.children
  | [], _, r, hr, _, _, _ => absurd hr (List.not_mem_nil r)
  | r' :: rs, acc, r, hr, hr0, it', hit' => by
    by_cases hrs : r ∈ rs
    · exact applyCBT_sets rs _ r hrs hr0 it' hit'
    · have hrr' : r = r' := by
        rcases List.mem_cons.mp hr with h0 | h0
        · exact h0
        · exact absurd h0 hrs
      subst hrr'
      have h0 : (r == 0) = false := by simpa using hr0
      have hstep : applyCBT (r :: rs) acc = applyCBT rs (setCBT acc r) := by
        show applyCBT rs (if r == 0 then acc else setCBT acc r) = _
        rw [h0]
        rfl
      rw [hstep] at hit'
      rw [applyCBT_lookup_ne rs (setCBT acc r) hrs] at hit'
      cases hl : lookup acc r with
      | none =>
        exfalso
        have hpred : ∀ x : Item, (fun x => x.id == r)
            ((fun x => if x.id == r then
              { x with children_by_type := groupChildrenByType acc x.children }
            else x) x) = (fun x => x.id == r) x := by
          intro x
          dsimp only
          by_cases hx : (x.id == r) = true
          · rw [if_pos hx]
          · rw [if_neg hx]
        have hnone : lookup (setCBT acc r) r = none := by
          unfold setCBT lookup
          unfold lookup at hl
          rw [find?_map_pred_eq hpred acc, hl]
          rfl
        rw [hnone] at hit'
        exact Option.noConfusion hit'
      | some it =>
        rw [lookup_setCBT_self hl] at hit'
        injection hit' with hit'
        subst hit'
        show groupChildrenByType acc it.children
          = groupChildrenByType (applyCBT (r :: rs) acc) it.children
        refine groupChildrenByType_congr ?_ it.children
        rw [hstep]
        exact coreAll_trans (setCBT_coreAll acc r)
          (applyCBT_coreAll rs (setCBT acc r))

/-- Which items keep their `children_by_type` through the root loop. -/
def cbtKeeps (rs₀ : List Nat) (a b : Item) : Prop :=
  b.id = a.id ∧ (b.children_by_type = a.children_by_type ∨ a.id ∈ rs₀)

theorem setCBT_cbtKeeps {acc : List Item} {r : Nat} {rs₀ : List Nat} (hr : r ∈ rs₀) :
    List.Forall₂ (cbtKeeps rs₀) acc (setCBT acc r) := by
  unfold setCBT
  refine forall₂_map_apply ?_
  intro x _
  by_cases hx : (x.id == r) = true
  · rw [if_pos hx]
    refine ⟨rfl, Or.inr ?_⟩
    have : x.id = r := by simpa using hx
    rw [this]
    exact hr
  · rw [if_neg hx]
    exact ⟨rfl, Or.inl rfl⟩

theorem cbtKeeps_trans {rs₀ : List Nat} {a b c : Item}
    (h1 : cbtKeeps rs₀ a b) (h2 : cbtKeeps rs₀ b c) : cbtKeeps rs₀ a c := by
  refine ⟨h2.1.trans h1.1, ?_⟩
  rcases h1.2 with hc1 | hm1
  · rcases h2.2 with hc2 | hm2
    · exact Or.inl (hc2.trans hc1)
    · exact Or.inr (h1.1 ▸ hm2)
  · exact Or.inr hm1

theorem cbtAll_trans {rs₀ : List Nat} : ∀ {m₁ m₂ m₃ : List Item},
    List.Forall₂ (cbtKeeps rs₀) m₁ m₂ → List.Forall₂ (cbtKeeps rs₀) m₂ m₃ →
      List.Forall₂ (cbtKeeps rs₀) m₁ m₃
  | [], [], [], _, _ => List.Forall₂.nil
  | _ :: _, _ :: _, _ :: _, List.Forall₂.cons h1 t1, List.Forall₂.cons h2 t2 =>
    List.Forall₂.cons (cbtKeeps_trans h1 h2) (cbtAll_trans t1 t2)

theorem applyCBT_cbtKeeps : ∀ (rs : List Nat) (acc : List Item) {rs₀ : List Nat},
    (∀ x ∈ rs, x ∈ rs₀) → List.Forall₂ (cbtKeeps rs₀) acc (applyCBT rs acc)
  | [], acc, _, _ => forall₂_refl_of (fun a => ⟨rfl, Or.inl rfl⟩) acc
  | r :: rs, acc, rs₀, h => by
    show List.Forall₂ (cbtKeeps rs₀) acc (applyCBT rs (if r == 0 then acc else setCBT acc r))
    have hsub : ∀ x ∈ rs, x ∈ rs₀ := fun x hx => h x (List.mem_cons_of_mem r hx)
    by_cases h0 : (r == 0) = true
    · rw [if_pos h0]
      exact applyCBT_cbtKeeps rs acc hsub
    · rw [if_neg h0]
      exact cbtAll_trans
        (setCBT_cbtKeeps (h r (List.mem_cons_self r rs)))
        (applyCBT_cbtKeeps rs (setCBT acc r) hsub)

/-! ### Claim theorems for the builder pipeline -/

theorem hierarchyBuild_eq {m : List Item} {st : BuildSt} (h : processAll m = some st) :
    hierarchyBuild m = some { all := applyCBT st.roots st.all,
                              root_items := st.roots,
                              by_type := groupByType (applyCBT st.roots st.all) st.roots } := by
  unfold hierarchyBuild
  rw [h]

theorem coreAll_childrenOf {m m' : List Item} (h : List.Forall₂ coreEq m m')
    (p : Nat) : childrenOf m' p = childrenOf m p := by
  unfold childrenOf
  cases hl : lookup m p with
  | none =>
    rw [(coreAll_lookup h p).1 hl]
  | some it =>
    obtain ⟨it', hit', hev⟩ := (coreAll_lookup h p).2 it hl
    rw [hit']
    show it'.children = it.children
    exact hev.2.2.2.2.2.2

theorem coreAll_linked {m m' : List Item} (h : List.Forall₂ coreEq m m')
    (hla : LinkedAll m) : LinkedAll m' := by
  intro it' hit' hp
  obtain ⟨it, hit, hev⟩ := forall₂_mem_right h it' hit'
  have hp0 : hasParentP m it := by
    refine ⟨?_, ?_⟩
    · rw [← hev.2.2.2.1]
      exact hp.1
    · rw [← hev.2.2.2.1]
      have := hp.2
      rw [coreAll_ids h] at this
      exact this
  have hlinked := hla it hit hp0
  rw [coreAll_childrenOf h, hev.2.2.2.1, hev.1]
  exact hlinked

theorem coreAll_wfc {m m' : List Item} (h : List.Forall₂ coreEq m m')
    (hw : ∀ it ∈ m, ∀ c ∈ it.children, c ∈ idsOf m) :
    ∀ it' ∈ m', ∀ c ∈ it'.children, c ∈ idsOf m' := by
  intro it' hit' c hc
  obtain ⟨it, hit, hev⟩ := forall₂_mem_right h it' hit'
  rw [coreAll_ids h]
  refine hw it hit c ?_
  rw [← hev.2.2.2.2.2.2]
  exact hc

theorem coreAll_proj : ∀ {l l' : List Item}, List.Forall₂ coreEq l l' →
    l'.map (fun it => (it.id, it.children)) = l.map (fun it => (it.id, it.children))
  | [], [], _ => rfl
  | a :: _, b :: _, List.Forall₂.cons h t => by
    rw [List.map_cons, List.map_cons, h.1, h.2.2.2.2.2.2, coreAll_proj t]

/-- Claim C10: the first pass of hierarchy construction terminates on every
finite well-formed item map, parent-reference cycles included: it returns a
state in which every id in `processed_ids` is a map key recorded at most
once. -/
theorem c10_termination (m : List Item)
    (hwfc : ∀ it ∈ m, ∀ c ∈ it.children, c ∈ idsOf m) :
    ∃ st, processAll m = some st ∧ st.processed.Nodup ∧
      ∀ j ∈ st.processed, j ∈ idsOf m := by
  obtain ⟨st, hst⟩ := processAll_some hwfc
  obtain ⟨hspec, _⟩ := processAll_spec hst
  refine ⟨st, hst, hspec.2.2.2.2.1 List.nodup_nil, ?_⟩
  intro j hj
  rcases hspec.2.2.2.1 j hj with h0 | h0
  · exact absurd h0 (List.not_mem_nil j)
  · exact h0

/-- Concrete map whose `parent_id` references form a 2-cycle. -/
def c10map : List Item :=
  [mkItem 1 "A" 2 false false, mkItem 2 "B" 1 false false]

/-- Witness for `c10_termination` on the cyclic map. -/
theorem c10_termination_witness :
    ∃ st, processAll c10map = some st ∧ st.processed.Nodup ∧
      ∀ j ∈ st.processed, j ∈ idsOf c10map :=
  c10_termination c10map (by decide)

/-- Claim C5: after hierarchy construction, an item of the map with no
resolvable parent, a cleared orphan flag and a non-zero id is in the root
list, while an item with a resolvable non-zero parent is appended to that
parent's children and kept out of the root list. -/
theorem c5_roots_vs_children (m : List Item) (hwf : WFmap m) :
    ∃ o, hierarchyBuild m = some o ∧
      ∀ it ∈ m,
        (¬(it.parent_id ≠ 0 ∧ it.parent_id ∈ idsOf m) → it.orphan = false →
          it.id ≠ 0 → it.id ∈ o.root_items) ∧
        ((it.parent_id ≠ 0 ∧ it.parent_id ∈ idsOf m) →
          it.id ∈ childrenOf o.all it.parent_id ∧ it.id ∉ o.root_items) := by
  obtain ⟨hnd, hch⟩ := hwf
  obtain ⟨st, hst⟩ := processAll_some (fun it hit => (hch it hit).1)
  obtain ⟨hspec, hall⟩ := processAll_spec hst
  refine ⟨_, hierarchyBuild_eq hst, ?_⟩
  intro it hit
  have hids : idsOf st.all = idsOf m := evAll_ids hspec.1
  have hmemid : it.id ∈ idsOf m := List.mem_map.mpr ⟨it, hit, rfl⟩
  have hproc : it.id ∈ st.processed := hall it.id hmemid
  have hlook0 : lookup m it.id = some it := lookup_self hnd hit
  obtain ⟨it1, hlook1, hev1⟩ := evAll_lookup_some hspec.1 hlook0
  have hinvp : INVp st :=
    hspec.2.2.2.2.2.1 (fun j hj => absurd hj (List.not_mem_nil j))
  have hinvr : INVr st :=
    hspec.2.2.2.2.2.2.1 (fun j hj => absurd hj (List.not_mem_nil j))
  have hpp_iff : hasParentP st.all it1 ↔
      (it.parent_id ≠ 0 ∧ it.parent_id ∈ idsOf m) := by
    unfold hasParentP
    rw [hev1.2.2.2.1, hids]
  have hpost := hinvp it.id hproc it1 hlook1
  constructor
  · intro hnp ho _
    refine hpost.2 (fun hq => hnp (hpp_iff.mp hq)) ?_
    rw [hev1.2.2.2.2.2.1]
    exact ho
  · intro hp
    have hp1 : hasParentP st.all it1 := hpp_iff.mpr hp
    constructor
    · have hc : it.id ∈ childrenOf st.all it.parent_id := by
        have hc0 := hpost.1 hp1
        rw [hev1.2.2.2.1] at hc0
        exact hc0
      show it.id ∈ childrenOf (applyCBT st.roots st.all) it.parent_id
      rw [coreAll_childrenOf (applyCBT_coreAll st.roots st.all) it.parent_id]
      exact hc
    · intro hroot
      obtain ⟨it2, hlook2, hnp2, _⟩ := hinvr it.id hroot
      rw [hlook1] at hlook2
      injection hlook2 with hlook2
      subst hlook2
      exact hnp2 hp1

/-- Concrete map for the C5 witness: one root, one linked child. -/
def c5map : List Item :=
  [mkItem 1 "Epic" 0 false false, mkItem 2 "Bug" 1 false false]

/-- Witness for `c5_roots_vs_children` at a concrete input. -/
theorem c5_roots_vs_children_witness :
    ∃ o, hierarchyBuild c5map = some o ∧
      ∀ it ∈ c5map,
        (¬(it.parent_id ≠ 0 ∧ it.parent_id ∈ idsOf c5map) → it.orphan = false →
          it.id ≠ 0 → it.id ∈ o.root_items) ∧
        ((it.parent_id ≠ 0 ∧ it.parent_id ∈ idsOf c5map) →
          it.id ∈ childrenOf o.all it.parent_id ∧ it.id ∉ o.root_items) :=
  c5_roots_vs_children c5map (by decide)

/-- Claim C7: every non-zero root of a built hierarchy carries
`children_by_type` equal to the grouping of its direct children, and the
synthetic "Other" parent's own children are grouped into its
`children_by_type` when it is created. -/
theorem c7_children_by_type_assignment (m m2 : List Item) (hwf : WFmap m)
    (w : Item) (hw : w ∈ m2) (hwo : orphanP w = true) :
    (∃ o, hierarchyBuild m = some o ∧
      ∀ r ∈ o.root_items, r ≠ 0 →
        ∃ it', lookup o.all r = some it' ∧
          it'.children_by_type = groupChildrenByType o.all it'.children) ∧
    (∃ ot, lookup (createOtherParent m2) 0 = some ot ∧
      ot.children = (m2.filter orphanP).map (·.id) ∧
      ot.children_by_type = groupItems (m2.filter orphanP)) := by
  constructor
  · obtain ⟨hnd, hch⟩ := hwf
    obtain ⟨st, hst⟩ := processAll_some (fun it hit => (hch it hit).1)
    obtain ⟨hspec, _⟩ := processAll_spec hst
    have hinvr : INVr st :=
      hspec.2.2.2.2.2.2.1 (fun j hj => absurd hj (List.not_mem_nil j))
    refine ⟨_, hierarchyBuild_eq hst, ?_⟩
    intro r hr hr0
    obtain ⟨it2, hlook2, _, _⟩ := hinvr r hr
    obtain ⟨it', hit', _⟩ :=
      (coreAll_lookup (applyCBT_coreAll st.roots st.all) r).2 it2 hlook2
    exact ⟨it', hit', applyCBT_sets st.roots st.all r hr hr0 it' hit'⟩
  · obtain ⟨⟨ot, hlook, _, _, _, hch2, hcbt⟩, _, _⟩ := createOtherParent_spec hw hwo
    exact ⟨ot, hlook, hch2, hcbt⟩

/-- Concrete maps for the C7 witness. -/
def c7map : List Item :=
  [mkItem 1 "Epic" 0 false false, mkItem 2 "Bug" 1 false false,
   mkItem 3 "Task" 1 false false]

def c7orphans : List Item :=
  [mkItem 4 "Bug" 9 false true, mkItem 5 "Task" 0 false true]

/-- Witness for `c7_children_by_type_assignment` at concrete inputs. -/
theorem c7_children_by_type_assignment_witness :
    (∃ o, hierarchyBuild c7map = some o ∧
      ∀ r ∈ o.root_items, r ≠ 0 →
        ∃ it', lookup o.all r = some it' ∧
          it'.children_by_type = groupChildrenByType o.all it'.children) ∧
    (∃ ot, lookup (createOtherParent c7orphans) 0 = some ot ∧
      ot.children = (c7orphans.filter orphanP).map (·.id) ∧
      ot.children_by_type = groupItems (c7orphans.filter orphanP)) :=
  c7_children_by_type_assignment c7map c7orphans (by decide)
    (mkItem 4 "Bug" 9 false true) (by decide) (by decide)

/-- Claim C6 (amended): grouping does not recurse — `children_by_type` is
assigned only to root items, so every non-root item keeps the
`children_by_type` it had in the input map, even when its `children` list
is non-empty. -/
theorem c6_grouping_one_level (m : List Item) (hwf : WFmap m) :
    ∃ o, hierarchyBuild m = some o ∧
      ∀ it' ∈ o.all, it'.id ∉ o.root_items →
        ∃ it ∈ m, it.id = it'.id ∧ it'.children_by_type = it.children_by_type := by
  obtain ⟨hnd, hch⟩ := hwf
  obtain ⟨st, hst⟩ := processAll_some (fun it hit => (hch it hit).1)
  obtain ⟨hspec, _⟩ := processAll_spec hst
  refine ⟨_, hierarchyBuild_eq hst, ?_⟩
  intro it' hit' hnr
  have h2 := applyCBT_cbtKeeps st.roots st.all (fun x hx => hx)
  obtain ⟨itm, hitm, hk⟩ := forall₂_mem_right h2 it' hit'
  obtain ⟨it0, hit0, hev⟩ := forall₂_mem_right hspec.1 itm hitm
  refine ⟨it0, hit0, ?_, ?_⟩
  · rw [hk.1, hev.1]
  · rcases hk.2 with hcbt | hmem
    · rw [hcbt, hev.2.2.2.2.2.2.1]
    · exfalso
      refine hnr ?_
      show it'.id ∈ st.roots
      rw [hk.1]
      exact hmem

/-- Concrete map for the C6 counterexample and amended witness: a chain
1 ← 2 ← 3, so node 2 is a non-root with non-empty children. -/
def c6map : List Item :=
  [mkItem 1 "Epic" 0 false false, mkItem 2 "Feature" 1 false false,
   mkItem 3 "Bug" 2 false false]

/-- Claim C6 (counterexample): after building the chain, the depth-1 node
(id 2) has a non-empty `children` list but an empty `children_by_type` —
the grouping does not recurse below root level. -/
theorem c6_counterexample :
    (hierarchyBuild c6map).map
        (fun o => (lookup o.all 2).map
          (fun it => (it.children, it.children_by_type)))
      = some (some ([3], [])) := by
  decide

/-- Witness for `c6_grouping_one_level` at a concrete input. -/
theorem c6_grouping_one_level_witness :
    ∃ o, hierarchyBuild c6map = some o ∧
      ∀ it' ∈ o.all, it'.id ∉ o.root_items →
        ∃ it ∈ c6map, it.id = it'.id ∧ it'.children_by_type = it.children_by_type :=
  c6_grouping_one_level c6map (by decide)

/-- Claim C4: re-running the builder on the map produced by a first run
yields identical `(id, children)` for every entry and no duplicate root
(in particular no second "Other" node in the root list), and re-running
`_create_other_parent` on its own output creates nothing new. -/
theorem c4_idempotent (m : List Item) (hwf : WFmap m) :
    (∃ o1 o2, hierarchyBuild m = some o1 ∧ hierarchyBuild o1.all = some o2 ∧
      o2.all.map (fun it => (it.id, it.children))
        = o1.all.map (fun it => (it.id, it.children)) ∧
      o2.root_items.Nodup) ∧
    createOtherParent (createOtherParent m) = createOtherParent m := by
  refine ⟨?_, createOtherParent_idem m⟩
  obtain ⟨hnd, hch⟩ := hwf
  obtain ⟨st1, hst1⟩ := processAll_some (fun it hit => (hch it hit).1)
  obtain ⟨hspec1, _⟩ := processAll_spec hst1
  have hcore1 : List.Forall₂ coreEq st1.all (applyCBT st1.roots st1.all) :=
    applyCBT_coreAll st1.roots st1.all
  have hids1 : idsOf st1.all = idsOf m := evAll_ids hspec1.1
  have hidsO : idsOf (applyCBT st1.roots st1.all) = idsOf m := by
    rw [coreAll_ids hcore1, hids1]
  have hndO : (idsOf (applyCBT st1.roots st1.all)).Nodup := by
    rw [hidsO]
    exact hnd
  have hwfst1 : WFst st1 :=
    hspec1.2.2.2.2.2.2.2.1 (fun it hit => (hch it hit).1)
  have hwfO : ∀ it ∈ applyCBT st1.roots st1.all, ∀ c ∈ it.children,
      c ∈ idsOf (applyCBT st1.roots st1.all) := coreAll_wfc hcore1 hwfst1
  have hlaO : LinkedAll (applyCBT st1.roots st1.all) :=
    coreAll_linked hcore1 (processAll_linked hnd hst1)
  obtain ⟨st2, hst2⟩ := processAll_some hwfO
  obtain ⟨hspec2, _⟩ := processAll_spec hst2
  have hnoop : st2.all = applyCBT st1.roots st1.all := processAll_noop hndO hlaO hst2
  refine ⟨_, _, hierarchyBuild_eq hst1, hierarchyBuild_eq hst2, ?_, ?_⟩
  · show (applyCBT st2.roots st2.all).map (fun it => (it.id, it.children))
      = (applyCBT st1.roots st1.all).map (fun it => (it.id, it.children))
    rw [coreAll_proj (applyCBT_coreAll st2.roots st2.all), hnoop]
  · show st2.roots.Nodup
    exact hspec2.2.2.2.2.2.2.2.2 List.nodup_nil

/-- Concrete map for the C4 witness: two roots, two linked children. -/
def c4map : List Item :=
  [mkItem 1 "Epic" 0 false false, mkItem 2 "Bug" 1 false false,
   mkItem 3 "Epic" 0 false false, mkItem 4 "Task" 3 false false]

/-- Witness for `c4_idempotent` at a concrete input. -/
theorem c4_idempotent_witness :
    (∃ o1 o2, hierarchyBuild c4map = some o1 ∧ hierarchyBuild o1.all = some o2 ∧
      o2.all.map (fun it => (it.id, it.children))
        = o1.all.map (fun it => (it.id, it.children)) ∧
      o2.root_items.Nodup) ∧
    createOtherParent (createOtherParent c4map) = createOtherParent c4map :=
  c4_idempotent c4map (by decide)

end ChangelogWeaver
